import Mathlib

/-!
Verification development for the PoE patch-server client
(`PyPoE/poe/patchserver.py`): a shallow embedding of the handshake client,
the framed stream reader, the directory-listing client and the directory
tree model, with theorems checking the specification's claims.

Conventions of the embedding:
* bytes are `Nat` values (< 256 where the source produces real bytes);
* Python `str` values are lists of UTF-16 code units (`List Nat`);
* socket traffic is a list of chunks (`List (List Nat)`): each `recv`
  returns the next chunk, an empty list of chunks models a stream on
  which no further data ever arrives (end of TCP stream);
* fallible code returns `Option`/`Except`, mutation is explicit state
  passing.
-/

/-! ### Byte and string helpers -/

/-- Model of Python `str.lower` restricted to the ASCII range (the names in
the protocol are ASCII; only the fact that the same function is applied at
every hashing site matters to the claims). -/
def lowerCU (u : Nat) : Nat := if 65 ≤ u ∧ u ≤ 90 then u + 32 else u

/-- Python `str.encode("utf-16le")`: each code unit becomes two
little-endian bytes. -/
def utf16le (us : List Nat) : List Nat :=
  us.flatMap (fun u => [u % 256, u / 256 % 256])

/-- Group bytes into little-endian 16-bit code units. -/
def pairsLE : List Nat → List Nat
  | b0 :: b1 :: rest => (b0 + 256 * b1) :: pairsLE rest
  | _ => []

/-- Group bytes into big-endian 16-bit code units. -/
def pairsBE : List Nat → List Nat
  | b0 :: b1 :: rest => (256 * b0 + b1) :: pairsBE rest
  | _ => []

/-- Model of Python `bytes.decode("utf-16")`: honours a BOM when present and
otherwise decodes little-endian (the platform byte order everywhere the
program runs, and the order the protocol uses); fails on an odd number of
bytes. -/
def decodeUtf16 (bs : List Nat) : Option (List Nat) :=
  if bs.length % 2 ≠ 0 then none
  else match bs with
    | 255 :: 254 :: rest => some (pairsLE rest)
    | 254 :: 255 :: rest => some (pairsBE rest)
    | _ => some (pairsLE bs)

/-- Big-endian bytes to an unsigned integer (`struct.unpack(">I", ...)`,
`int.from_bytes(..., byteorder="big")`). -/
def beNat (bs : List Nat) : Nat := bs.foldl (fun a b => 256 * a + b) 0

/-- Hex digit value to its lowercase character code. -/
def hexChar (d : Nat) : Nat := if d < 10 then 48 + d else 97 + (d - 10)

/-- Little-endian base-16 digit values of `n` (fuel-driven so that the
definition is structural and kernel-reduces). -/
def hexDigitsRev : Nat → Nat → List Nat
  | 0, _ => []
  | fuel + 1, n => if n = 0 then [] else n % 16 :: hexDigitsRev fuel (n / 16)

/-- Python `format(h, "064x")`: lowercase hex, zero-padded to (at least)
64 digits. -/
def hex64 (h : Nat) : List Nat :=
  let ds := if h = 0 then [0] else (hexDigitsRev h h).reverse
  let s := ds.map hexChar
  List.replicate (64 - s.length) 48 ++ s

/-- Hex character code to its digit value (`int(_, 16)` accepts both
cases). -/
def hexVal (c : Nat) : Option Nat :=
  if 48 ≤ c ∧ c ≤ 57 then some (c - 48)
  else if 97 ≤ c ∧ c ≤ 102 then some (c - 87)
  else if 65 ≤ c ∧ c ≤ 70 then some (c - 55)
  else none

/-- Model of Python `int(s, 16)` on the plain hex strings this program
produces: every character must be a hex digit and the string must be
non-empty, otherwise `ValueError` (modelled as `none`). -/
def parseHex (s : List Nat) : Option Nat :=
  match s with
  | [] => none
  | _ =>
    s.foldl (fun acc c =>
      match acc, hexVal c with
      | some a, some v => some (16 * a + v)
      | _, _ => none) (some 0)

/-- `q.take p.length = p`: `p` is an initial segment of `q` (local helper
used for index paths into the tree). -/
def pfx (p q : List Nat) : Bool := q.take p.length == p

/-- Modelled from the spec: `PyPoE.shared.murmur2.murmur2_32` is imported
by the patchserver module but that module is not part of this snapshot;
the spec describes `lookupHash` as "the murmur2-32 hash of the lowercased
name encoded UTF-16LE".  Standard 32-bit MurmurHash2 over a byte list,
seed 0; the claims depend only on which argument the program feeds it,
never on individual hash values.  Main loop over 4-byte little-endian
chunks. -/
def murmurChunks : List Nat → Nat → Nat
  | b0 :: b1 :: b2 :: b3 :: rest, h =>
    let k := b0 + 256 * b1 + 65536 * b2 + 16777216 * b3
    let k := k * 1540483477 % 4294967296
    let k := k ^^^ (k >>> 24)
    let k := k * 1540483477 % 4294967296
    let h := h * 1540483477 % 4294967296
    murmurChunks rest (h ^^^ k)
  | tail, h =>
    let h := match tail with
      | [b0] => (h ^^^ b0) * 1540483477 % 4294967296
      | [b0, b1] => (h ^^^ (b0 + 256 * b1)) * 1540483477 % 4294967296
      | [b0, b1, b2] => (h ^^^ (b0 + 256 * b1 + 65536 * b2)) * 1540483477 % 4294967296
      | _ => h
    let h := h ^^^ (h >>> 13)
    let h := h * 1540483477 % 4294967296
    h ^^^ (h >>> 15)

/-- 32-bit MurmurHash2 of a byte string, seed 0 (see `murmurChunks`). -/
def murmur2_32 (data : List Nat) : Nat := murmurChunks data (data.length % 4294967296)

/-! ### The directory tree model

`PyPoE.poe.file.ggpk.DirectoryNode` (base class of `DirectoryNodeExtended`)
is not part of this snapshot; its data shape and lookup are modelled from
the spec (section 3 "Node"/"Record" and section 4.4 "lookup").  A node's
parent back-reference is represented by the tree structure itself: a child
is exactly a member of its parent's `children` list. -/

/-- The record variants: `None` (the root), `VirtualDirectoryRecord`
(name, 256-bit content hash) and `VirtualFileRecord` (name, hash,
32-bit size, stored in `data_length`). -/
inductive VRecord where
  | root : VRecord
  | dir (name : List Nat) (hash : Nat) : VRecord
  | file (name : List Nat) (hash : Nat) (size : Nat) : VRecord
deriving DecidableEq, Repr

/-- The `hash` attribute of a node (the 32-bit lookup hash).  The source
stores `None` for the root, an integer for nodes built from protocol
frames — and, through `load_dict`, sometimes a *string*; the variants keep
those cases apart. -/
inductive HashV where
  | none : HashV
  | int (n : Nat) : HashV
  | str (s : List Nat) : HashV
deriving DecidableEq, Repr

/-- Modelled from the spec: a `DirectoryNode` carries a record, the lookup
hash and an ordered list of owned children (the parent back-reference is
the tree structure itself). -/
inductive DirectoryNode where
  | mk (record : VRecord) (hash : HashV) (children : List DirectoryNode) : DirectoryNode

def DirectoryNode.record : DirectoryNode → VRecord | .mk r _ _ => r

def DirectoryNode.hash : DirectoryNode → HashV | .mk _ h _ => h

def DirectoryNode.children : DirectoryNode → List DirectoryNode | .mk _ _ cs => cs

/-- Name carried by a record (`None` has no name). -/
def recName : VRecord → Option (List Nat)
  | .root => none
  | .dir n _ => some n
  | .file n _ _ => some n

/-- Modelled from the spec: one matching step of the tree lookup — a child
matches a segment by its case-insensitive name hash, then by exact
name. -/
def matchSeg (seg : List Nat) (c : DirectoryNode) : Bool :=
  c.hash == HashV.int (murmur2_32 (utf16le (seg.map lowerCU))) || recName c.record == some seg

/-- Index of the first child matching a segment. -/
def childIdx : List DirectoryNode → List Nat → Option Nat
  | [], _ => none
  | c :: cs, seg => if matchSeg seg c then some 0 else (childIdx cs seg).map (· + 1)

/-- Walk name segments from a node downward, returning the child-index
path taken. -/
def resolveIdx : DirectoryNode → List (List Nat) → Option (List Nat)
  | _, [] => some []
  | t, seg :: rest =>
    match childIdx t.children seg with
    | none => none
    | some i =>
      match t.children[i]? with
      | none => none
      | some c => (resolveIdx c rest).map (i :: ·)

/-- Python `str.split("/")` on a code-unit string (47 = `/`). -/
def splitSlash : List Nat → List (List Nat)
  | [] => [[]]
  | c :: rest =>
    match splitSlash rest with
    | g :: gs => if c = 47 then [] :: g :: gs else (c :: g) :: gs
    | [] => [[c]]

/-- Modelled from the spec: `DirectoryNode.__getitem__` — resolve a
`/`-separated path to a node, `FileNotFoundError` (here `none`) when a
segment is absent; the empty path resolves to the node itself (the code
indexes the tree with `''` for the root query).  Returns the child-index
path; `nodeAtIdx` recovers the node. -/
def getPath (t : DirectoryNode) (path : List Nat) : Option (List Nat) :=
  if path = [] then some [] else resolveIdx t (splitSlash path)

/-- Node at a child-index path. -/
def nodeAtIdx : DirectoryNode → List Nat → Option DirectoryNode
  | t, [] => some t
  | t, i :: p =>
    match t.children[i]? with
    | none => none
    | some c => nodeAtIdx c p

/-- Replace the children of the node at a child-index path
(`parent.children = ...`); out-of-tree paths leave the tree unchanged
(they never occur: the caller resolved the path first). -/
def setChildrenAtIdx : DirectoryNode → List Nat → List DirectoryNode → DirectoryNode
  | .mk r h _, [], cs => .mk r h cs
  | .mk r h kids, i :: p, cs =>
    match kids[i]? with
    | none => .mk r h kids
    | some c => .mk r h (kids.set i (setChildrenAtIdx c p cs))

/-- The node-identity data a mutation elsewhere in the tree must preserve:
record and lookup hash. -/
def shallow (n : DirectoryNode) : VRecord × HashV := (n.record, n.hash)

/-- Record and hash of the node at an index path. -/
def shallowAt (t : DirectoryNode) (q : List Nat) : Option (VRecord × HashV) :=
  (nodeAtIdx t q).map shallow

/-- Records and hashes of the children of the node at an index path. -/
def childrenShallowAt (t : DirectoryNode) (q : List Nat) : Option (List (VRecord × HashV)) :=
  (nodeAtIdx t q).map (fun n => n.children.map shallow)

/-! ### `Patch.update_patch_urls` — handshake reply parsing -/

/-- The pure parsing step of `Patch.update_patch_urls` applied to the bytes
received after sending the protocol marker: skip 1 reserved byte, skip 33
reserved bytes (`struct.unpack` fails on a short read), read a 1-byte
length and decode that many UTF-16 code units as the primary url, skip 1
reserved byte, read a second length-prefixed UTF-16 string as the CDN url.
Returns `(patch_url, patch_cdn_url)`. -/
def Patch.update_patch_urls (data : List Nat) : Option (List Nat × List Nat) :=
  match data with
  | _unknown :: rest =>
    if rest.length < 33 then none
    else match rest.drop 33 with
      | n1 :: r1 =>
        match decodeUtf16 (r1.take (2 * n1)) with
        | none => none
        | some url1 =>
          match r1.drop (2 * n1) with
          | _blank :: n2 :: r2 =>
            match decodeUtf16 (r2.take (2 * n2)) with
            | none => none
            | some url2 => some (url1, url2)
          | _ => none
      | [] => none
  | [] => none

/-! ### `Patch.download_raw` — download with CDN fallback -/

/-- Outcome of one `urlopen` attempt against one host: an HTTP response
with a status code and body, or a `URLError` whose `reason` either is or
is not a `ConnectionRefusedError`. -/
inductive UrlOutcome where
  | ok (code : Nat) (body : List Nat)
  | urlErr (refused : Bool)
deriving DecidableEq, Repr

/-- What `download_raw` does: return the body, fall off the loop returning
`None`, raise `ValueError` (status ≠ 200), or re-raise the `URLError`. -/
inductive DlResult where
  | body (b : List Nat)
  | retNone
  | raiseValue (code : Nat)
  | raiseUrl (refused : Bool)
deriving DecidableEq, Repr

/-- The `for index, host in enumerate(hosts)` loop of `download_raw`.
Also counts the attempts actually made, so that "the primary URL was never
tried" is expressible.  `2` is `len(hosts)`; the dead disjunct
`¬ index < 2` is kept as written in the source. -/
def dlLoop : List UrlOutcome → Nat → Nat → DlResult × Nat
  | [], _, att => (.retNone, att)
  | o :: rest, index, att =>
    match o with
    | .ok code b => if code ≠ 200 then (.raiseValue code, att + 1) else (.body b, att + 1)
    | .urlErr refused =>
      if ¬refused ∨ ¬(index < 2) then (.raiseUrl refused, att + 1)
      else dlLoop rest (index + 1) (att + 1)

/-- `Patch.download_raw`: try `hosts = [patch_cdn_url, patch_url]` in
order; the two arguments are the outcomes an attempt against each host
would produce. -/
def Patch.download_raw (cdn primary : UrlOutcome) : DlResult × Nat :=
  dlLoop [cdn, primary] 0 0

example : Patch.download_raw (.ok 200 [1, 2]) (.urlErr true) = (.body [1, 2], 1) := rfl

example : Patch.download_raw (.urlErr true) (.ok 200 [7]) = (.body [7], 2) := rfl

example : Patch.download_raw (.urlErr true) (.urlErr true) = (.retNone, 2) := rfl

example : Patch.download_raw (.ok 404 []) (.ok 200 [7]) = (.raiseValue 404, 1) := rfl

example : Patch.update_patch_urls
    ([1] ++ List.replicate 33 0 ++ [3, 97, 0, 98, 0, 99, 0, 0, 3, 120, 0, 121, 0, 122, 0]) =
    some ([97, 98, 99], [120, 121, 122]) := rfl

/-! ### `PatchFileList.read` — the framed stream reader -/

/-- Errors of the protocol client.  `EOFError`, `socket.timeout`,
`KeyError` (unknown header / item type), `FileNotFoundError` (tree
lookup), `ValueError` (caller bugs) and `struct.error` are kept apart. -/
inductive UErr where
  | duplicate : UErr
  | rootMixed : UErr
  | unknownFolder : UErr
  | notFolder : UErr
deriving DecidableEq, Repr

inductive PErr where
  | truncated : PErr
  | timeout : PErr
  | protocol : PErr
  | notFound : PErr
  | usage (e : UErr) : PErr
  | structRange : PErr
deriving DecidableEq, Repr

/-- Reader state: `self.data` (an `io.BytesIO`: the bytes and the seek
position) plus the socket's pending chunks, each one `recv` call's
result. -/
structure RdSt where
  buf : List Nat
  pos : Nat
  chunks : List (List Nat)
deriving DecidableEq, Repr

/-- `data_stream.read(n)` from position `pos`. -/
def readChunk (buf : List Nat) (pos n : Nat) : List Nat := (buf.drop pos).take n

/-- `PatchFileList.read(read_length)`: serve the request from the buffer;
if short, pull one chunk from the socket (none pending ⇒ `EOFError`) and
retry once from the saved seek position; a second short read again pulls a
chunk but the attempt counter then exceeds 1 and the call fails with
`EOFError` — so at most 2 read attempts, at most one chunk can contribute.
Both `EOFError` sites are `.truncated`. -/
def PatchFileList.read (n : Nat) (st : RdSt) : Except PErr (List Nat × RdSt) :=
  let d1 := readChunk st.buf st.pos n
  if d1.length < n then
    match st.chunks with
    | [] => .error .truncated
    | c1 :: rest1 =>
      let buf1 := st.buf ++ c1
      let d2 := readChunk buf1 st.pos n
      if d2.length < n then .error .truncated
      else .ok (d2, ⟨buf1, st.pos + n, rest1⟩)
  else .ok (d1, ⟨st.buf, st.pos + n, st.chunks⟩)

/-- `PatchFileList.extract_varchar`: a 1-byte length prefix, then that
many UTF-16 code units (empty string for length 0). -/
def PatchFileList.extract_varchar (st : RdSt) : Except PErr (List Nat × RdSt) :=
  match PatchFileList.read 1 st with
  | .error e => .error e
  | .ok (lb, st1) =>
    let len := lb.headD 0
    if len > 0 then
      match PatchFileList.read (len * 2) st1 with
      | .error e => .error e
      | .ok (sb, st2) =>
        match decodeUtf16 sb with
        | none => .error .protocol
        | some s => .ok (s, st2)
    else .ok ([], st1)

/-! ### `PatchFileList.update_filelist` — the directory listing client -/

/-- One decoded item of a listing response frame. -/
structure PItem where
  isDir : Bool
  name : List Nat
  size : Nat
  sha : Nat
deriving DecidableEq, Repr

/-- Record for a decoded item (`VirtualDirectoryRecord(name, hash)` /
`VirtualFileRecord(name, hash, size)`; a directory's wire size field is
discarded). -/
def itemRecord (it : PItem) : VRecord :=
  if it.isDir then .dir it.name it.sha else .file it.name it.sha it.size

/-- Child node for a decoded item:
`DirectoryNodeExtended(record=..., hash=murmur2_32(name.lower().encode("utf-16le")), parent=parent)`.
The parent back-reference is realised by where the caller installs the
node. -/
def itemNode (it : PItem) : DirectoryNode :=
  .mk (itemRecord it) (.int (murmur2_32 (utf16le (it.name.map lowerCU)))) []

/-- The per-item loop of `update_filelist`: 2-byte type tag (`00 00` file,
`01 00` directory, else `KeyError`), variable-length name, 4-byte
big-endian size and 32-byte big-endian sha256. -/
def parseItems : Nat → RdSt → Except PErr (List PItem × RdSt)
  | 0, st => .ok ([], st)
  | k + 1, st =>
    match PatchFileList.read 2 st with
    | .error e => .error e
    | .ok (hdr, st1) =>
      let tag : Option Bool :=
        if hdr = [0, 0] then some false else if hdr = [1, 0] then some true else none
      match tag with
      | none => .error .protocol
      | some isDir =>
        match PatchFileList.extract_varchar st1 with
        | .error e => .error e
        | .ok (name, st2) =>
          match PatchFileList.read 36 st2 with
          | .error e => .error e
          | .ok (blob, st3) =>
            match parseItems k st3 with
            | .error e => .error e
            | .ok (items, st4) =>
              .ok (⟨isDir, name, beNat (blob.take 4), beNat (blob.drop 4)⟩ :: items, st4)

/-- `[0x03, 0x00]`, the request sub-frame marker. -/
def PROTO_PRE : List Nat := [3, 0]

/-- `[0x04, 0x00]`, the response sub-frame marker. -/
def PROTO_HEADER2 : List Nat := [4, 0]

/-- The request-building loop of `update_filelist` (everything before any
byte is sent).  Root (`''`) must be alone (`ValueError`); any other folder
must resolve to a node holding a `DirectoryRecord` (`ValueError` on
`FileNotFoundError` or a non-directory); `struct.pack("B", len(folder))`
fails for names longer than 255 code units.  `multi` is
`len(folders) > 1`. -/
def buildQueryGo (tree : DirectoryNode) (multi : Bool) :
    List (List Nat) → List Nat → Except PErr (List Nat)
  | [], acc => .ok acc
  | f :: rest, acc =>
    if f = [] then
      if multi then .error (.usage .rootMixed)
      else buildQueryGo tree multi rest (PROTO_PRE ++ [0])
    else
      match getPath tree f with
      | none => .error (.usage .unknownFolder)
      | some ip =>
        match nodeAtIdx tree ip with
        | none => .error (.usage .unknownFolder)
        | some node =>
          match node.record with
          | .dir _ _ =>
            if f.length ≤ 255 then
              buildQueryGo tree multi rest (acc ++ PROTO_PRE ++ [f.length] ++ utf16le f)
            else .error .structRange
          | _ => .error (.usage .notFolder)

/-- `update_filelist`'s pre-send phase: the duplicate check
(`len(set(folders)) != len(folders)`), then the per-folder checks and the
concatenated request frame. -/
def buildQuery (tree : DirectoryNode) (folders : List (List Nat)) : Except PErr (List Nat) :=
  if folders.dedup.length ≠ folders.length then .error (.usage .duplicate)
  else buildQueryGo tree (decide (folders.length > 1)) folders []

/-- One response sub-frame: header `04 00` (else `KeyError`), folder name,
4-byte big-endian item count, `parent = self.directory[folder]`
(`FileNotFoundError` if it no longer resolves), then the items.  Returns
the parent's index path and the decoded items. -/
def parseFolder (tree : DirectoryNode) (folder : List Nat) (st : RdSt) :
    Except PErr (List Nat × List PItem × RdSt) :=
  match PatchFileList.read 2 st with
  | .error e => .error e
  | .ok (hdr, st1) =>
    if hdr ≠ PROTO_HEADER2 then .error .protocol
    else
      match PatchFileList.extract_varchar st1 with
      | .error e => .error e
      | .ok (_folderName, st2) =>
        match PatchFileList.read 4 st2 with
        | .error e => .error e
        | .ok (cb, st3) =>
          match getPath tree folder with
          | none => .error .notFound
          | some ip =>
            match parseItems (beNat cb) st3 with
            | .error e => .error e
            | .ok (items, st4) => .ok (ip, items, st4)

/-- The response loop of `update_filelist`: one sub-frame per requested
folder, in request order; after each frame
`parent.children = folder_directory_nodes` replaces that folder's children
wholesale.  An error aborts the loop, keeping the mutations already
made (Python exceptions do not roll back). -/
def processFolders :
    List (List Nat) → DirectoryNode → RdSt → DirectoryNode × RdSt × Option PErr
  | [], t, st => (t, st, none)
  | f :: fs, t, st =>
    match parseFolder t f st with
    | .error e => (t, st, some e)
    | .ok (ip, items, st1) =>
      processFolders fs (setChildrenAtIdx t ip (items.map itemNode)) st1

/-- Client state: the shared tree (`self.directory`), the reader state
(`self.data` plus the socket's pending chunks) and the transcript of sent
requests (the connection's write side). -/
structure PatchFileList where
  directory : DirectoryNode
  data : RdSt
  sent : List (List Nat)

/-- `PatchFileList.update_filelist(folders)`: build and send the request
frame (any precondition violation raises before the send), then
`sock.recv(2048)` primes a fresh reader buffer (nothing arriving ⇒
`socket.timeout`), then the response loop.  Returns the new state and the
error, if any, that the call raised. -/
def PatchFileList.update_filelist (folders : List (List Nat)) (st : PatchFileList) :
    PatchFileList × Option PErr :=
  match buildQuery st.directory folders with
  | .error e => (st, some e)
  | .ok q =>
    let sent1 := st.sent ++ [q]
    match st.data.chunks with
    | [] => ({ st with sent := sent1 }, some .timeout)
    | c :: rest =>
      let (t1, rd1, err) := processFolders folders st.directory ⟨c, 0, rest⟩
      ({ directory := t1, data := rd1, sent := sent1 }, err)

/-- The decode trace of the response loop: for each folder processed, in
request order, the resolved index path and the decoded items of that
folder's response sub-frame.  It threads exactly the states
`processFolders` threads (same `parseFolder` calls on the same reader),
so entry `i` is folder `i`'s frame as the loop decoded it; the trace
stops where the loop aborts. -/
def framesOf : List (List Nat) → DirectoryNode → RdSt → List (List Nat × List PItem)
  | [], _, _ => []
  | f :: fs, t, st =>
    match parseFolder t f st with
    | .error _ => []
    | .ok (ip, items, st1) =>
      (ip, items) :: framesOf fs (setChildrenAtIdx t ip (items.map itemNode)) st1

/-- `framesOf` started on the reader `update_filelist` primes with the
first `recv` (empty when nothing arrives and the call times out). -/
def PatchFileList.update_filelist_frames (folders : List (List Nat)) (st : PatchFileList) :
    List (List Nat × List PItem) :=
  match st.data.chunks with
  | [] => []
  | c :: rest => framesOf folders st.directory ⟨c, 0, rest⟩

example :
    PatchFileList.read 5 ⟨[1, 2, 3], 0, [[4, 5]]⟩ = .ok ([1, 2, 3, 4, 5], ⟨[1, 2, 3, 4, 5], 5, []⟩) :=
  rfl

example : PatchFileList.read 5 ⟨[1, 2, 3], 0, []⟩ = .error .truncated := rfl

example : PatchFileList.read 9 ⟨[1, 2, 3], 0, [[4, 5], [6, 7, 8, 9]]⟩ = .error .truncated := rfl

/-! ### `DirectoryNodeExtended.get_dict` / `load_dict` / `gen_walk` -/

/-- `OrderedDict`-style values: the nested ordered-map serialization.
Keys are the fixed ASCII literals of the source; string values are
code-unit lists. -/
inductive DVal where
  | str (s : List Nat) : DVal
  | num (n : Nat) : DVal
  | dict (entries : List (String × DVal)) : DVal
  | list (l : List DVal) : DVal

/-- `"ROOT"` as code units. -/
def rootNameCU : List Nat := [82, 79, 79, 84]

/-- `"file"` as code units. -/
def fileCU : List Nat := [102, 105, 108, 101]

/-- `"folder"` as code units. -/
def folderCU : List Nat := [102, 111, 108, 100, 101, 114]

mutual

/-- `DirectoryNodeExtended.get_dict(recurse)`: `name`, `hash`
(64-digit lowercase hex), `type` (+ `size` for files) for a
`BaseRecordData` record, only `name: "ROOT"` otherwise; then, when
`recurse is True` **and the node has more than one child**, a `children`
key listing `child.get_dict()` for each child. -/
def DirectoryNode.get_dict : DirectoryNode → Bool → DVal
  | .mk r _ cs, recurse =>
    let base : List (String × DVal) :=
      match r with
      | .root => [("name", .str rootNameCU)]
      | .dir name hsh =>
        [("name", .str name), ("hash", .str (hex64 hsh)), ("type", .str folderCU)]
      | .file name hsh size =>
        [("name", .str name), ("hash", .str (hex64 hsh)), ("type", .str fileCU),
         ("size", .num size)]
    if recurse = true ∧ cs.length > 1 then
      .dict (base ++ [("children", .list (DirectoryNode.get_dictL cs))])
    else .dict base

/-- `children.append(child.get_dict())` over the child list. -/
def DirectoryNode.get_dictL : List DirectoryNode → List DVal
  | [] => []
  | c :: cs => c.get_dict true :: DirectoryNode.get_dictL cs

end

/-- First value stored under a key (`node_dict[key]`; the dicts this
program builds have no duplicate keys). -/
def dictGet : List (String × DVal) → String → Option DVal
  | [], _ => none
  | (k, v) :: rest, key => if k = key then some v else dictGet rest key

mutual

/-- Constructor count of a value: the fuel bound for `load_dict` (the
derived `sizeOf` of a nested inductive has no executable code). -/
def dvalSize : DVal → Nat
  | .str _ => 1
  | .num _ => 1
  | .dict es => 1 + dentriesSize es
  | .list l => 1 + dlistSize l

def dentriesSize : List (String × DVal) → Nat
  | [] => 1
  | (_, v) :: rest => 1 + dvalSize v + dentriesSize rest

def dlistSize : List DVal → Nat
  | [] => 1
  | v :: rest => 1 + dvalSize v + dlistSize rest

end

/-- `load_dict` error taxonomy: `TypeError` (not an `OrderedDict` /
non-iterable children), `KeyError` for a missing key, `KeyError` for an
unknown `type`, `ValueError` from `int(_, 16)`, plus fuel exhaustion
(unreachable: see `DirectoryNode.load_dict`). -/
inductive LErr where
  | typeMismatch : LErr
  | keyErr : LErr
  | unknownType : LErr
  | valueErr : LErr
  | fuelOut : LErr
deriving DecidableEq, Repr

mutual

/-- `DirectoryNodeExtended.load_dict(node_dict, parent)`, fuel-driven so
that the definition kernel-reduces (each recursive call descends into the
value, so `sizeOf` fuel always suffices; see `DirectoryNode.load_dict`).
`isTop` is `parent is None`: the top-level node takes
`self.hash = node_hash` (`None` for `"ROOT"`, else the parsed content
hash), while every recursively created child takes `hash=node_name` —
the *name string*, exactly as the source does.  Field access order
mirrors the source: `name`, (`type`, `hash`, `size`), then `children`;
a missing `children` key is swallowed (`except KeyError: pass`), a falsy
one skips the loop. -/
def load_dictF : Nat → Bool → DVal → Except LErr DirectoryNode
  | 0, _, _ => .error .fuelOut
  | fuel + 1, isTop, d =>
    match d with
    | .dict entries =>
      match dictGet entries "name" with
      | none => .error .keyErr
      | some (.str name) =>
        if name = rootNameCU then
          match dictGet entries "children" with
          | none => .ok (.mk .root (if isTop then .none else .str name) [])
          | some (.list []) => .ok (.mk .root (if isTop then .none else .str name) [])
          | some (.list (k0 :: kids)) =>
            match load_kidsF fuel (k0 :: kids) with
            | .error e => .error e
            | .ok ns => .ok (.mk .root (if isTop then .none else .str name) ns)
          | some (.num 0) => .ok (.mk .root (if isTop then .none else .str name) [])
          | some (.str []) => .ok (.mk .root (if isTop then .none else .str name) [])
          | some (.dict []) => .ok (.mk .root (if isTop then .none else .str name) [])
          | some _ => .error .typeMismatch
        else
          match dictGet entries "type" with
          | none => .error .keyErr
          | some typeV =>
            match dictGet entries "hash" with
            | none => .error .keyErr
            | some (.str hs) =>
              match parseHex hs with
              | none => .error .valueErr
              | some hInt =>
                let mkRec : Except LErr VRecord :=
                  match typeV with
                  | .str tv =>
                    if tv = fileCU then
                      match dictGet entries "size" with
                      | none => .error .keyErr
                      | some (.num size) => .ok (.file name hInt size)
                      | some _ => .error .typeMismatch
                    else if tv = folderCU then .ok (.dir name hInt)
                    else .error .unknownType
                  | _ => .error .unknownType
                match mkRec with
                | .error e => .error e
                | .ok record =>
                  let nodeHash : HashV := if isTop then .int hInt else .str name
                  match dictGet entries "children" with
                  | none => .ok (.mk record nodeHash [])
                  | some (.list []) => .ok (.mk record nodeHash [])
                  | some (.list (k0 :: kids)) =>
                    match load_kidsF fuel (k0 :: kids) with
                    | .error e => .error e
                    | .ok ns => .ok (.mk record nodeHash ns)
                  | some (.num 0) => .ok (.mk record nodeHash [])
                  | some (.str []) => .ok (.mk record nodeHash [])
                  | some (.dict []) => .ok (.mk record nodeHash [])
                  | some _ => .error .typeMismatch
            | some _ => .error .valueErr
      | some _ => .error .typeMismatch
    | _ => .error .typeMismatch

/-- The `for child in node_children: child_node.load_dict(child, child_node)`
loop: each child is loaded with `parent` set, i.e. in non-top mode, and
appended in order. -/
def load_kidsF : Nat → List DVal → Except LErr (List DirectoryNode)
  | 0, _ => .error .fuelOut
  | _ + 1, [] => .ok []
  | fuel + 1, c :: cs =>
    match load_dictF fuel false c, load_kidsF fuel cs with
    | .ok n, .ok ns => .ok (n :: ns)
    | .error e, _ => .error e
    | _, .error e => .error e

end

/-- `load_dict` called as the source's public entry point
(`parent=None`, mutating `self`): `dvalSize` of the value bounds every
recursion chain, so the fuel never runs out on the value itself. -/
def DirectoryNode.load_dict (d : DVal) : Except LErr DirectoryNode :=
  load_dictF (dvalSize d) true d

mutual

/-- Structural equality of trees in the claims' sense: same record
(name, content hash, size, type) and same children in the same order at
every node; the `lookupHash` slot is node bookkeeping, not part of the
serialized structure. -/
def structEq : DirectoryNode → DirectoryNode → Bool
  | .mk r1 _ cs1, .mk r2 _ cs2 => r1 == r2 && structEqL cs1 cs2

def structEqL : List DirectoryNode → List DirectoryNode → Bool
  | [], [] => true
  | c :: cs, d :: ds => structEq c d && structEqL cs ds
  | _, _ => false

end

mutual

/-- `DirectoryNodeExtended.gen_walk(max_depth, _depth)` as the list of
yielded `(node, depth)` pairs: yield the node if not past `max_depth`
(`-1` = unbounded), then the children's walks at `_depth + 1` if that
does not exceed `max_depth`. -/
def DirectoryNode.gen_walk : DirectoryNode → Int → Nat → List (DirectoryNode × Nat)
  | .mk r h cs, max_depth, _depth =>
    if max_depth = -1 ∨ (_depth : Int) ≤ max_depth then
      (DirectoryNode.mk r h cs, _depth) ::
        (if max_depth = -1 ∨ ((_depth + 1 : Nat) : Int) ≤ max_depth then
          DirectoryNode.gen_walkL cs max_depth (_depth + 1)
        else [])
    else []

/-- `for child in self.children: yield from child.gen_walk(...)`. -/
def DirectoryNode.gen_walkL : List DirectoryNode → Int → Nat → List (DirectoryNode × Nat)
  | [], _, _ => []
  | c :: cs, max_depth, d =>
    c.gen_walk max_depth d ++ DirectoryNode.gen_walkL cs max_depth d

end

mutual

/-- Ghost mirror of `gen_walk` that yields the child-index path of each
visited node instead of the node; the depth of a yielded pair is the
path's length.  `genWalkSpec` ties it to `gen_walk`. -/
def genWalkP : DirectoryNode → Int → List Nat → List (List Nat × Nat)
  | .mk _ _ cs, max_depth, p =>
    if max_depth = -1 ∨ (p.length : Int) ≤ max_depth then
      (p, p.length) ::
        (if max_depth = -1 ∨ ((p.length + 1 : Nat) : Int) ≤ max_depth then
          genWalkPL cs 0 max_depth p
        else [])
    else []

/-- Children of the node at path `p`, child `c` numbered `i`, walked at
path `p ++ [i]`. -/
def genWalkPL : List DirectoryNode → Nat → Int → List Nat → List (List Nat × Nat)
  | [], _, _, _ => []
  | c :: cs, i, max_depth, p =>
    genWalkP c max_depth (p ++ [i]) ++ genWalkPL cs (i + 1) max_depth p

end

example :
    (DirectoryNode.gen_walk (.mk .root .none [.mk (.file [97] 5 1) .none [],
      .mk (.dir [98] 6) .none [.mk (.file [99] 7 2) .none []]]) (-1) 0).map (fun x => x.2) =
    [0, 1, 1, 2] := rfl

example :
    (DirectoryNode.gen_walk (.mk .root .none [.mk (.file [97] 5 1) .none [],
      .mk (.dir [98] 6) .none [.mk (.file [99] 7 2) .none []]]) 1 0).map (fun x => x.2) =
    [0, 1, 1] := rfl

example :
    genWalkP (.mk .root .none [.mk (.file [97] 5 1) .none [],
      .mk (.dir [98] 6) .none [.mk (.file [99] 7 2) .none []]]) (-1) [] =
    [([], 0), ([0], 1), ([1], 1), ([1, 0], 2)] := rfl

/-! ### Sample protocol data used by concrete runs -/

/-- A root-listing response frame: header `04 00`, empty folder name,
item count 1, one file item named `"a.txt"`, size 10, content hash 1. -/
def sampleFrame : List Nat :=
  PROTO_HEADER2 ++ [0] ++ [0, 0, 0, 1] ++ [0, 0] ++
    [5, 97, 0, 46, 0, 116, 0, 120, 0, 116, 0] ++ [0, 0, 0, 10] ++
    (List.replicate 31 0 ++ [1])

/-- Fresh client state whose socket will deliver `sampleFrame`. -/
def sampleState : PatchFileList := ⟨.mk .root .none [], ⟨[], 0, [sampleFrame]⟩, []⟩

/-- The serialized form of a root holding one file `"a.txt"`, hash 1,
size 10 (what `get_dict` would emit for a two-child root, restricted to
one entry). -/
def sampleDict : DVal :=
  .dict [("name", .str rootNameCU),
    ("children", .list [.dict [("name", .str [97, 46, 116, 120, 116]),
      ("hash", .str (hex64 1)), ("type", .str fileCU), ("size", .num 10)]])]

/-- `true` iff the value is a dict holding the key. -/
def dvalHasKey (d : DVal) (k : String) : Bool :=
  match d with
  | .dict es => (dictGet es k).isSome
  | _ => false

/-! ### Claim theorems -/

/-- C9: when the attempt against the CDN URL and the fallback attempt
against the primary URL both fail with a connection-refused condition,
`download_raw` raises nothing and returns `None` (both hosts were tried,
the double refusal is swallowed by the loop's exit). -/
theorem claim_C9 : Patch.download_raw (.urlErr true) (.urlErr true) = (.retNone, 2) := rfl

/-- C5: `download_raw` tries the CDN URL first; a 200 response returns its
body and a non-200 response raises `ValueError`, both after a single
attempt; a non-connection-refused `URLError` is re-raised after a single
attempt (the primary URL is never tried in these cases); only a
connection-refused CDN attempt falls through to the primary URL, whose
outcome then decides the call. -/
theorem claim_C5 :
    (∀ (c : Nat) (b : List Nat) (primary : UrlOutcome),
      Patch.download_raw (.ok c b) primary =
        if c = 200 then (.body b, 1) else (.raiseValue c, 1)) ∧
    (∀ primary : UrlOutcome, Patch.download_raw (.urlErr false) primary = (.raiseUrl false, 1)) ∧
    (∀ primary : UrlOutcome, Patch.download_raw (.urlErr true) primary =
      match primary with
      | .ok c b => if c = 200 then (.body b, 2) else (.raiseValue c, 2)
      | .urlErr r => if r then (.retNone, 2) else (.raiseUrl false, 2)) := by
  refine ⟨fun c b primary => ?_, fun primary => rfl, fun primary => ?_⟩
  · by_cases hc : c = 200 <;> simp [Patch.download_raw, dlLoop, hc]
  · match primary with
    | .ok c b => by_cases hc : c = 200 <;> simp [Patch.download_raw, dlLoop, hc]
    | .urlErr r => cases r <;> simp [Patch.download_raw, dlLoop]

/-- C7: `update_patch_urls` decodes the two 1-byte-length-prefixed UTF-16
strings found after the 1 + 33 reserved bytes (and a 1-byte reserved gap
between them) into `(patch_url, patch_cdn_url)`. -/
theorem claim_C7 (u blank n1 n2 : Nat) (pad s1 s2 rest v1 v2 : List Nat)
    (hpad : pad.length = 33) (h1 : s1.length = 2 * n1) (h2 : s2.length = 2 * n2)
    (hv1 : decodeUtf16 s1 = some v1) (hv2 : decodeUtf16 s2 = some v2) :
    Patch.update_patch_urls (u :: (pad ++ n1 :: (s1 ++ blank :: n2 :: (s2 ++ rest)))) =
      some (v1, v2) := by
  have hdrop : (pad ++ n1 :: (s1 ++ blank :: n2 :: (s2 ++ rest))).drop 33 =
      n1 :: (s1 ++ blank :: n2 :: (s2 ++ rest)) := by
    rw [← hpad, List.drop_left]
  have hlen : ¬ (pad ++ n1 :: (s1 ++ blank :: n2 :: (s2 ++ rest))).length < 33 := by
    simp [hpad]
  have htake1 : (s1 ++ blank :: n2 :: (s2 ++ rest)).take (2 * n1) = s1 :=
    List.take_left' h1
  have hdrop1 : (s1 ++ blank :: n2 :: (s2 ++ rest)).drop (2 * n1) =
      blank :: n2 :: (s2 ++ rest) := List.drop_left' h1
  have htake2 : (s2 ++ rest).take (2 * n2) = s2 := List.take_left' h2
  simp only [Patch.update_patch_urls, hlen, if_false, hdrop, htake1, hv1, hdrop1, htake2, hv2]

/-- C7 witness: the spec scenario `01 00*33 03 "abc"(utf16le) 00 03
"xyz"(utf16le)` yields `patch_url = "abc"`, `patch_cdn_url = "xyz"`. -/
theorem claim_C7_witness :
    Patch.update_patch_urls (1 :: (List.replicate 33 0 ++ 3 ::
        ([97, 0, 98, 0, 99, 0] ++ 0 :: 3 :: ([120, 0, 121, 0, 122, 0] ++ [])))) =
      some ([97, 98, 99], [120, 121, 122]) :=
  claim_C7 1 0 3 3 (List.replicate 33 0) [97, 0, 98, 0, 99, 0] [120, 0, 121, 0, 122, 0] []
    [97, 98, 99] [120, 121, 122] (by decide) (by decide) (by decide) (by decide) (by decide)

/-- C10: `get_dict(recurse=True)` emits a `children` key only when the
node has strictly more than one child; with exactly one child there is no
`children` key — the child is absent from the output mapping. -/
theorem claim_C10 :
    (∀ (r : VRecord) (h : HashV) (c : DirectoryNode),
      dvalHasKey (DirectoryNode.get_dict (.mk r h [c]) true) "children" = false) ∧
    (∀ (r : VRecord) (h : HashV) (c1 c2 : DirectoryNode) (cs : List DirectoryNode),
      dvalHasKey (DirectoryNode.get_dict (.mk r h (c1 :: c2 :: cs)) true) "children" = true) := by
  constructor
  · intro r h c
    cases r <;> simp [DirectoryNode.get_dict, dvalHasKey, dictGet]
  · intro r h c1 c2 cs
    cases r <;> simp [DirectoryNode.get_dict, dvalHasKey, dictGet]

/-- C1: the round-trip law fails on the code — `get_dict` omits the
`children` key when a node has exactly one child (`len > 1` where the
docstring promises "Folders have children[]"), so deserializing the
serialization of a root with a single file child loses that child:
the result is not structurally equal to the input. -/
theorem claim_C1 :
    DirectoryNode.load_dict (DirectoryNode.get_dict
        (.mk .root .none [.mk (.file [97, 46, 116, 120, 116] 1 10) (.int 0) []]) true) =
      .ok (.mk .root .none []) ∧
    structEq (.mk .root .none [.mk (.file [97, 46, 116, 120, 116] 1 10) (.int 0) []])
      (.mk .root .none []) = false :=
  ⟨rfl, rfl⟩

/-- C8: a node decoded from a listing response frame does carry the
murmur2-32 hash of its lowercased UTF-16LE name (first conjunct: the
concrete root listing), but a node reconstructed by `load_dict` carries
the *name string* as its `hash` (`hash=node_name` in the source), which is
not that 32-bit hash — the invariant fails on the deserialization path. -/
theorem claim_C8 :
    (PatchFileList.update_filelist [[]] sampleState).1.directory =
      .mk .root .none [.mk (.file [97, 46, 116, 120, 116] 1 10)
        (.int (murmur2_32 (utf16le ([97, 46, 116, 120, 116].map lowerCU)))) []] ∧
    DirectoryNode.load_dict sampleDict =
      .ok (.mk .root .none [.mk (.file [97, 46, 116, 120, 116] 1 10)
        (.str [97, 46, 116, 120, 116]) []]) ∧
    HashV.str [97, 46, 116, 120, 116] ≠
      HashV.int (murmur2_32 (utf16le ([97, 46, 116, 120, 116].map lowerCU))) :=
  ⟨rfl, rfl, by decide⟩

/-- C2: `read(n)` returns exactly `n` bytes or fails with `EOFError`
(`StreamTruncated`); it succeeds when the buffered data suffices, and when
the buffer plus one extra socket receive covers the request; with nothing
pending on the socket it fails instead of blocking; and even when further
chunks are pending, a request not covered after one extra receive fails —
read attempts are capped at 2 per call. -/
theorem claim_C2 (n : Nat) (st : RdSt) :
    (∀ bs st2, PatchFileList.read n st = .ok (bs, st2) → bs.length = n) ∧
    (n ≤ (st.buf.drop st.pos).length →
      PatchFileList.read n st =
        .ok ((st.buf.drop st.pos).take n, ⟨st.buf, st.pos + n, st.chunks⟩)) ∧
    (∀ c1 rest, st.chunks = c1 :: rest → (st.buf.drop st.pos).length < n →
      n ≤ ((st.buf ++ c1).drop st.pos).length →
      PatchFileList.read n st =
        .ok (((st.buf ++ c1).drop st.pos).take n, ⟨st.buf ++ c1, st.pos + n, rest⟩)) ∧
    (st.chunks = [] → (st.buf.drop st.pos).length < n →
      PatchFileList.read n st = .error .truncated) ∧
    (∀ c1 rest, st.chunks = c1 :: rest → ((st.buf ++ c1).drop st.pos).length < n →
      PatchFileList.read n st = .error .truncated) := by
  obtain ⟨buf, pos, chunks⟩ := st
  simp only
  have hok1 : n ≤ (buf.drop pos).length →
      PatchFileList.read n ⟨buf, pos, chunks⟩ =
        .ok ((buf.drop pos).take n, ⟨buf, pos + n, chunks⟩) := by
    intro hL
    have hc : ¬ (readChunk buf pos n).length < n := by
      simp only [readChunk, List.length_take]
      omega
    simp only [PatchFileList.read, hc, if_false]
    rfl
  have hok2 : ∀ c1 rest, chunks = c1 :: rest → (buf.drop pos).length < n →
      n ≤ ((buf ++ c1).drop pos).length →
      PatchFileList.read n ⟨buf, pos, chunks⟩ =
        .ok (((buf ++ c1).drop pos).take n, ⟨buf ++ c1, pos + n, rest⟩) := by
    intro c1 rest hch hshort hL
    subst hch
    have hc : (readChunk buf pos n).length < n := by
      simp only [readChunk, List.length_take]
      omega
    have hc2 : ¬ (readChunk (buf ++ c1) pos n).length < n := by
      simp only [readChunk, List.length_take]
      omega
    simp only [PatchFileList.read, hc, if_true, hc2, if_false]
    rfl
  have herr1 : chunks = [] → (buf.drop pos).length < n →
      PatchFileList.read n ⟨buf, pos, chunks⟩ = .error .truncated := by
    intro hch hshort
    subst hch
    have hc : (readChunk buf pos n).length < n := by
      simp only [readChunk, List.length_take]
      omega
    simp only [PatchFileList.read, hc, if_true]
  have herr2 : ∀ c1 rest, chunks = c1 :: rest → ((buf ++ c1).drop pos).length < n →
      PatchFileList.read n ⟨buf, pos, chunks⟩ = .error .truncated := by
    intro c1 rest hch hL
    subst hch
    have hmono : (buf.drop pos).length ≤ ((buf ++ c1).drop pos).length := by
      simp only [List.length_drop, List.length_append]
      omega
    have hc : (readChunk buf pos n).length < n := by
      simp only [readChunk, List.length_take]
      omega
    have hc2 : (readChunk (buf ++ c1) pos n).length < n := by
      simp only [readChunk, List.length_take]
      omega
    simp only [PatchFileList.read, hc, if_true, hc2]
  refine ⟨?_, hok1, hok2, herr1, herr2⟩
  intro bs st2 h
  rcases Nat.lt_or_ge (buf.drop pos).length n with hL | hL
  · cases chunks with
    | nil =>
      rw [herr1 rfl hL] at h
      exact absurd h (by simp)
    | cons c1 rest =>
      rcases Nat.lt_or_ge ((buf ++ c1).drop pos).length n with hL2 | hL2
      · rw [herr2 c1 rest rfl hL2] at h
        exact absurd h (by simp)
      · rw [hok2 c1 rest rfl hL hL2] at h
        simp only [Except.ok.injEq, Prod.mk.injEq] at h
        obtain ⟨hbs, -⟩ := h
        subst hbs
        simp only [List.length_take]
        omega
  · rw [hok1 hL] at h
    simp only [Except.ok.injEq, Prod.mk.injEq] at h
    obtain ⟨hbs, -⟩ := h
    subst hbs
    simp only [List.length_take]
    omega

/-- C2 witness: a 5-byte request against a 3-byte buffer and a pending
2-byte receive returns the 5-byte concatenation; with nothing pending the
same request fails with `StreamTruncated`. -/
theorem claim_C2_witness :
    PatchFileList.read 5 ⟨[1, 2, 3], 0, [[4, 5]]⟩ =
      .ok ([1, 2, 3, 4, 5], ⟨[1, 2, 3, 4, 5], 5, []⟩) ∧
    PatchFileList.read 5 ⟨[1, 2, 3], 0, []⟩ = .error .truncated := by
  constructor
  · have h := (claim_C2 5 ⟨[1, 2, 3], 0, [[4, 5]]⟩).2.2.1 [4, 5] [] rfl (by decide) (by decide)
    simpa using h
  · exact (claim_C2 5 ⟨[1, 2, 3], 0, []⟩).2.2.2.1 rfl (by decide)

/-! ### C3: precondition violations fail before any send -/

/-- `f` names a known `Directory` node of the tree (the check
`isinstance(self.directory[folder].record, DirectoryRecord)`). -/
def resolvesToDir (t : DirectoryNode) (f : List Nat) : Bool :=
  match getPath t f with
  | none => false
  | some ip =>
    match nodeAtIdx t ip with
    | none => false
    | some node =>
      match node.record with
      | .dir _ _ => true
      | _ => false

theorem dedup_length_of_not_nodup {l : List (List Nat)} (h : ¬ l.Nodup) :
    l.dedup.length ≠ l.length := by
  intro hlen
  exact h (List.Sublist.eq_of_length (List.dedup_sublist l) hlen ▸ List.nodup_dedup l)

theorem buildQueryGo_err (t : DirectoryNode) (multi : Bool) (fs : List (List Nat))
    (acc : List Nat) (hlen : ∀ f ∈ fs, f.length ≤ 255)
    (hviol : ([] ∈ fs ∧ multi = true) ∨
      (∃ f ∈ fs, f ≠ [] ∧ resolvesToDir t f = false)) :
    ∃ e : UErr, buildQueryGo t multi fs acc = .error (.usage e) := by
  induction fs generalizing acc with
  | nil =>
    rcases hviol with ⟨h, _⟩ | ⟨f, hf, _, _⟩
    · exact absurd h (List.not_mem_nil [])
    · exact absurd hf (List.not_mem_nil f)
  | cons f rest ih =>
    by_cases hroot : f = []
    · subst hroot
      by_cases hm : multi = true
      · exact ⟨.rootMixed, by simp [buildQueryGo, hm]⟩
      · have hviol2 : ([] ∈ rest ∧ multi = true) ∨
            (∃ f ∈ rest, f ≠ [] ∧ resolvesToDir t f = false) := by
          rcases hviol with ⟨_, h⟩ | ⟨f, hf, hne, hres⟩
          · exact absurd h hm
          · rcases List.mem_cons.mp hf with rfl | hmem
            · exact absurd rfl hne
            · exact .inr ⟨f, hmem, hne, hres⟩
        have := ih (PROTO_PRE ++ [0]) (fun g hg => hlen g (List.mem_cons_of_mem _ hg)) hviol2
        simpa [buildQueryGo, hm] using this
    · have hviol2 : resolvesToDir t f = true →
          ([] ∈ rest ∧ multi = true) ∨
            (∃ g ∈ rest, g ≠ [] ∧ resolvesToDir t g = false) := by
        intro hres
        rcases hviol with ⟨h, hm⟩ | ⟨g, hg, hne, hgres⟩
        · rcases List.mem_cons.mp h with h' | hmem
          · exact absurd h'.symm hroot
          · exact .inl ⟨hmem, hm⟩
        · rcases List.mem_cons.mp hg with rfl | hmem
          · rw [hgres] at hres
            exact absurd hres (by simp)
          · exact .inr ⟨g, hmem, hne, hgres⟩
      cases hip : getPath t f with
      | none => exact ⟨.unknownFolder, by simp [buildQueryGo, hroot, hip]⟩
      | some ip =>
        cases hnode : nodeAtIdx t ip with
        | none => exact ⟨.unknownFolder, by simp [buildQueryGo, hroot, hip, hnode]⟩
        | some node =>
          cases hrec : node.record with
          | root =>
            exact ⟨.notFolder, by simp [buildQueryGo, hroot, hip, hnode, hrec]⟩
          | file nm hh sz =>
            exact ⟨.notFolder, by simp [buildQueryGo, hroot, hip, hnode, hrec]⟩
          | dir nm hh =>
            have hres : resolvesToDir t f = true := by
              simp [resolvesToDir, hip, hnode, hrec]
            obtain ⟨e, he⟩ := ih (acc ++ PROTO_PRE ++ [f.length] ++ utf16le f)
              (fun g hg => hlen g (List.mem_cons_of_mem _ hg)) (hviol2 hres)
            refine ⟨e, ?_⟩
            have h255 : f.length ≤ 255 := hlen f (List.mem_cons_self f rest)
            simp only [buildQueryGo, if_neg hroot, hip, hnode, hrec, if_pos h255]
            exact he

theorem buildQuery_err (t : DirectoryNode) (folders : List (List Nat))
    (hlen : ∀ f ∈ folders, f.length ≤ 255)
    (hviol : ¬ folders.Nodup ∨ ([] ∈ folders ∧ 1 < folders.length) ∨
      (∃ f ∈ folders, f ≠ [] ∧ resolvesToDir t f = false)) :
    ∃ e : UErr, buildQuery t folders = .error (.usage e) := by
  by_cases hnd : folders.Nodup
  · have hdl : folders.dedup.length = folders.length := by rw [hnd.dedup]
    have hviol2 : ([] ∈ folders ∧ decide (folders.length > 1) = true) ∨
        (∃ f ∈ folders, f ≠ [] ∧ resolvesToDir t f = false) := by
      rcases hviol with h | ⟨hmem, hlt⟩ | h
      · exact absurd hnd h
      · exact .inl ⟨hmem, by simpa using hlt⟩
      · exact .inr h
    obtain ⟨e, he⟩ := buildQueryGo_err t (decide (folders.length > 1)) folders [] hlen hviol2
    exact ⟨e, by simp only [buildQuery, hdl, ne_eq, not_true_eq_false, if_false]; exact he⟩
  · exact ⟨.duplicate, by simp [buildQuery, dedup_length_of_not_nodup hnd]⟩

/-- C3: a folder list that contains a duplicate, or the root together
with other names, or a non-root path that does not resolve to a known
`Directory` node, makes `update_filelist` fail with a `ValueError`
(`UsageError`) raised while building the request — before any bytes are
sent and with the client state (tree, reader, transcript) unchanged.
Folder names are at most 255 code units, the bound the wire format's
1-byte length field imposes on every name in the tree. -/
theorem claim_C3 (folders : List (List Nat)) (st : PatchFileList)
    (hlen : ∀ f ∈ folders, f.length ≤ 255)
    (hviol : ¬ folders.Nodup ∨ ([] ∈ folders ∧ 1 < folders.length) ∨
      (∃ f ∈ folders, f ≠ [] ∧ resolvesToDir st.directory f = false)) :
    ∃ e : UErr, PatchFileList.update_filelist folders st = (st, some (.usage e)) := by
  obtain ⟨e, he⟩ := buildQuery_err st.directory folders hlen hviol
  exact ⟨e, by simp only [PatchFileList.update_filelist, he]⟩

/-- C3 witness: querying the never-listed folder `"Data/Sub"` on a fresh
root fails with a `UsageError`, the state untouched. -/
theorem claim_C3_witness :
    ∃ e : UErr, PatchFileList.update_filelist [[68, 97, 116, 97, 47, 83, 117, 98]] sampleState =
      (sampleState, some (.usage e)) :=
  claim_C3 [[68, 97, 116, 97, 47, 83, 117, 98]] sampleState (by decide)
    (.inr (.inr ⟨[68, 97, 116, 97, 47, 83, 117, 98], by decide, by decide, by decide⟩))

/-! ### Path helpers for the walk and frame lemmas -/

theorem pfx_iff {p q : List Nat} : pfx p q = true ↔ ∃ r, q = p ++ r := by
  constructor
  · intro h
    have h' : q.take p.length = p := by simpa [pfx] using h
    refine ⟨q.drop p.length, ?_⟩
    conv_lhs => rw [← List.take_append_drop p.length q]
    rw [h']
  · rintro ⟨r, rfl⟩
    simp [pfx, List.take_left]

theorem pfx_refl (p : List Nat) : pfx p p = true := pfx_iff.mpr ⟨[], by simp⟩

theorem pfx_length {p q : List Nat} (h : pfx p q = true) : p.length ≤ q.length := by
  obtain ⟨r, rfl⟩ := pfx_iff.mp h
  simp

theorem pfx_trans {a b c : List Nat} (h1 : pfx a b = true) (h2 : pfx b c = true) :
    pfx a c = true := by
  obtain ⟨r, rfl⟩ := pfx_iff.mp h1
  obtain ⟨s, rfl⟩ := pfx_iff.mp h2
  exact pfx_iff.mpr ⟨r ++ s, by simp⟩

theorem pfx_snoc {pre : List Nat} (i : Nat) {q : List Nat} (h : pfx (pre ++ [i]) q = true) :
    pfx pre q = true :=
  pfx_trans (pfx_iff.mpr ⟨[i], rfl⟩) h

theorem pfx_unique_snoc {pre : List Nat} {i j : Nat} {q : List Nat}
    (hi : pfx (pre ++ [i]) q = true) (hj : pfx (pre ++ [j]) q = true) : i = j := by
  obtain ⟨r, hr⟩ := pfx_iff.mp hi
  obtain ⟨s, hs⟩ := pfx_iff.mp hj
  rw [hr, List.append_assoc, List.append_assoc] at hs
  have := List.append_cancel_left hs
  simp only [List.cons_append, List.nil_append, List.cons.injEq] at this
  exact this.1

theorem pfx_ne_snoc {pre q : List Nat} (h : pfx pre q = true) (hne : q ≠ pre) :
    ∃ i, pfx (pre ++ [i]) q = true := by
  obtain ⟨r, rfl⟩ := pfx_iff.mp h
  cases r with
  | nil => exact absurd (by simp) hne
  | cons i r' => exact ⟨i, pfx_iff.mpr ⟨r', by simp⟩⟩

/-- Strong induction over the (nested) tree type: to prove `P t` it is
enough to prove it for a node from its children. -/
def dnodeStrongInd (P : DirectoryNode → Prop)
    (step : ∀ r h cs, (∀ c ∈ cs, P c) → P (.mk r h cs)) : ∀ t, P t
  | .mk r h cs => step r h cs (fun c hc => dnodeStrongInd P step c)
termination_by t => sizeOf t
decreasing_by
  have := List.sizeOf_lt_of_mem hc
  simp only [DirectoryNode.mk.sizeOf_spec]
  omega

theorem nodeAtIdx_append (p : List Nat) :
    ∀ (t : DirectoryNode) (q : List Nat),
      nodeAtIdx t (p ++ q) = (nodeAtIdx t p).bind (fun s => nodeAtIdx s q) := by
  induction p with
  | nil => intro t q; simp [nodeAtIdx]
  | cons i p ih =>
    intro t q
    cases t with
    | mk r h cs =>
      simp only [List.cons_append, nodeAtIdx, DirectoryNode.children]
      cases cs[i]? with
      | none => rfl
      | some c => exact ih c q

theorem mem_of_getElemQ {α : Type} : ∀ (l : List α) (n : Nat) (a : α), l[n]? = some a → a ∈ l := by
  intro l
  induction l with
  | nil => intro n a h; simp at h
  | cons x xs ih =>
    intro n a h
    cases n with
    | zero =>
      simp only [List.getElem?_cons_zero, Option.some.injEq] at h
      exact h ▸ List.mem_cons_self _ _
    | succ n => exact List.mem_cons_of_mem _ (ih n a (by simpa using h))

theorem mem_genWalkPL {x : List Nat × Nat} :
    ∀ (cs : List DirectoryNode) (i : Nat) (md : Int) (pre : List Nat),
      x ∈ genWalkPL cs i md pre ↔
        ∃ j c, cs[j]? = some c ∧ x ∈ genWalkP c md (pre ++ [i + j]) := by
  intro cs
  induction cs with
  | nil => intro i md pre; simp [genWalkPL]
  | cons c0 cs' ih =>
    intro i md pre
    simp only [genWalkPL, List.mem_append, ih]
    constructor
    · rintro (h | ⟨j, c, hj, hm⟩)
      · exact ⟨0, c0, by simp, by simpa using h⟩
      · refine ⟨j + 1, c, by simpa using hj, ?_⟩
        have harith : i + 1 + j = i + (j + 1) := by omega
        rwa [harith] at hm
    · rintro ⟨j, c, hj, hm⟩
      cases j with
      | zero =>
        left
        simp only [List.getElem?_cons_zero, Option.some.injEq] at hj
        subst hj
        simpa using hm
      | succ j' =>
        right
        refine ⟨j', c, by simpa using hj, ?_⟩
        have harith : i + (j' + 1) = i + 1 + j' := by omega
        rwa [harith] at hm

theorem sublist_genWalkPL {l : List (List Nat × Nat)} :
    ∀ (cs : List DirectoryNode) (i j : Nat) (c : DirectoryNode) (md : Int) (pre : List Nat),
      cs[j]? = some c → l.Sublist (genWalkP c md (pre ++ [i + j])) →
      l.Sublist (genWalkPL cs i md pre) := by
  intro cs
  induction cs with
  | nil => intro i j c md pre hj _; simp at hj
  | cons c0 cs' ih =>
    intro i j c md pre hj hl
    cases j with
    | zero =>
      simp only [List.getElem?_cons_zero, Option.some.injEq] at hj
      subst hj
      have hl' : l.Sublist (genWalkP c0 md (pre ++ [i])) := by simpa using hl
      exact hl'.trans (by
        simpa [genWalkPL] using
          List.sublist_append_left (genWalkP c0 md (pre ++ [i])) (genWalkPL cs' (i + 1) md pre))
    | succ j' =>
      have hm : l.Sublist (genWalkP c md (pre ++ [i + 1 + j'])) := by
        have harith : i + (j' + 1) = i + 1 + j' := by omega
        rwa [harith] at hl
      have := ih (i + 1) j' c md pre (by simpa using hj) hm
      exact this.trans (by
        simpa [genWalkPL] using
          List.sublist_append_right (genWalkP c0 md (pre ++ [i])) (genWalkPL cs' (i + 1) md pre))

theorem genWalkP_mem_path (t : DirectoryNode) :
    ∀ (md : Int) (pre q : List Nat) (k : Nat),
      (q, k) ∈ genWalkP t md pre → pfx pre q = true ∧ k = q.length := by
  refine dnodeStrongInd
    (fun t => ∀ (md : Int) (pre q : List Nat) (k : Nat),
      (q, k) ∈ genWalkP t md pre → pfx pre q = true ∧ k = q.length) ?_ t
  intro r h cs IH md pre q k hm
  simp only [genWalkP] at hm
  by_cases hcond : (md = -1 ∨ (pre.length : Int) ≤ md)
  swap
  · rw [if_neg hcond] at hm
    simp at hm
  rw [if_pos hcond] at hm
  rcases List.mem_cons.mp hm with heq | htail
  · simp only [Prod.mk.injEq] at heq
    obtain ⟨rfl, rfl⟩ := heq
    exact ⟨pfx_refl q, rfl⟩
  · by_cases hcond2 : (md = -1 ∨ ((pre.length + 1 : Nat) : Int) ≤ md)
    swap
    · rw [if_neg hcond2] at htail
      simp at htail
    rw [if_pos hcond2] at htail
    obtain ⟨j, c, hj, hmem⟩ := (mem_genWalkPL cs 0 md pre).mp htail
    have hj' : (0 + j) = j := by omega
    rw [hj'] at hmem
    obtain ⟨hpfx, hk⟩ := IH c (mem_of_getElemQ cs j c hj) md (pre ++ [j]) q k hmem
    exact ⟨pfx_snoc j hpfx, hk⟩

theorem genWalkP_order (t : DirectoryNode) :
    ∀ (md : Int) (pre p q : List Nat) (kp kq : Nat),
      (p, kp) ∈ genWalkP t md pre → (q, kq) ∈ genWalkP t md pre →
      pfx p q = true → p ≠ q →
      List.Sublist [(p, kp), (q, kq)] (genWalkP t md pre) := by
  refine dnodeStrongInd
    (fun t => ∀ (md : Int) (pre p q : List Nat) (kp kq : Nat),
      (p, kp) ∈ genWalkP t md pre → (q, kq) ∈ genWalkP t md pre →
      pfx p q = true → p ≠ q →
      List.Sublist [(p, kp), (q, kq)] (genWalkP t md pre)) ?_ t
  intro r h cs IH md pre p q kp kq hp hq hpq hne
  simp only [genWalkP] at hp hq ⊢
  by_cases hcond : (md = -1 ∨ (pre.length : Int) ≤ md)
  swap
  · rw [if_neg hcond] at hp
    simp at hp
  rw [if_pos hcond] at hp hq ⊢
  rcases List.mem_cons.mp hp with hpeq | hptail
  · simp only [Prod.mk.injEq] at hpeq
    obtain ⟨rfl, rfl⟩ := hpeq
    have hqtail : (q, kq) ∈
        (if md = -1 ∨ ((p.length + 1 : Nat) : Int) ≤ md then genWalkPL cs 0 md p else []) := by
      rcases List.mem_cons.mp hq with hqeq | hqtail
      · simp only [Prod.mk.injEq] at hqeq
        exact absurd hqeq.1.symm hne
      · exact hqtail
    exact List.Sublist.cons₂ _ (List.singleton_sublist.mpr hqtail)
  · by_cases hcond2 : (md = -1 ∨ ((pre.length + 1 : Nat) : Int) ≤ md)
    swap
    · rw [if_neg hcond2] at hptail
      simp at hptail
    rw [if_pos hcond2] at hptail hq ⊢
    obtain ⟨jp, cp, hjp, hpm⟩ := (mem_genWalkPL cs 0 md pre).mp hptail
    have hz : (0 + jp) = jp := by omega
    rw [hz] at hpm
    have hppfx : pfx (pre ++ [jp]) p = true := (genWalkP_mem_path cp md (pre ++ [jp]) p kp hpm).1
    have hqpre : q ≠ pre := by
      intro hq0
      have h1 := pfx_length hppfx
      have h2 := pfx_length hpq
      subst hq0
      simp at h1
      omega
    have hqtail : (q, kq) ∈ genWalkPL cs 0 md pre := by
      rcases List.mem_cons.mp hq with hqeq | hqtail
      · simp only [Prod.mk.injEq] at hqeq
        exact absurd hqeq.1 hqpre
      · exact hqtail
    obtain ⟨jq, cq, hjq, hqm⟩ := (mem_genWalkPL cs 0 md pre).mp hqtail
    have hz2 : (0 + jq) = jq := by omega
    rw [hz2] at hqm
    have hqpfx : pfx (pre ++ [jq]) q = true := (genWalkP_mem_path cq md (pre ++ [jq]) q kq hqm).1
    have hjeq : jp = jq := pfx_unique_snoc (pfx_trans hppfx hpq) hqpfx
    subst hjeq
    have hceq : cp = cq := by
      rw [hjp] at hjq
      exact Option.some.inj hjq
    subst hceq
    have hsub := IH cp (mem_of_getElemQ cs jp cp hjp) md (pre ++ [jp]) p q kp kq hpm hqm hpq hne
    have hlift := sublist_genWalkPL cs 0 jp cp md pre hjp (by simpa using hsub)
    exact hlift.cons _

theorem mem_gen_walkL {x : DirectoryNode × Nat} :
    ∀ (cs : List DirectoryNode) (md : Int) (d : Nat),
      x ∈ DirectoryNode.gen_walkL cs md d ↔ ∃ c ∈ cs, x ∈ c.gen_walk md d := by
  intro cs
  induction cs with
  | nil => intro md d; simp [DirectoryNode.gen_walkL]
  | cons c0 cs' ih =>
    intro md d
    simp only [DirectoryNode.gen_walkL, List.mem_append, ih, List.mem_cons]
    constructor
    · rintro (h | ⟨c, hc, hm⟩)
      · exact ⟨c0, .inl rfl, h⟩
      · exact ⟨c, .inr hc, hm⟩
    · rintro ⟨c, hc | hc, hm⟩
      · exact .inl (hc ▸ hm)
      · exact .inr ⟨c, hc, hm⟩

theorem gen_walk_depth_le (t : DirectoryNode) :
    ∀ (md : Int) (d0 : Nat), md ≠ -1 →
      ∀ x ∈ DirectoryNode.gen_walk t md d0, (x.2 : Int) ≤ md := by
  refine dnodeStrongInd
    (fun t => ∀ (md : Int) (d0 : Nat), md ≠ -1 →
      ∀ x ∈ DirectoryNode.gen_walk t md d0, (x.2 : Int) ≤ md) ?_ t
  intro r h cs IH md d0 hmd x hx
  simp only [DirectoryNode.gen_walk] at hx
  by_cases hcond : (md = -1 ∨ (d0 : Int) ≤ md)
  swap
  · rw [if_neg hcond] at hx
    simp at hx
  rw [if_pos hcond] at hx
  rcases List.mem_cons.mp hx with heq | htail
  · subst heq
    rcases hcond with hc | hc
    · exact absurd hc hmd
    · exact hc
  · by_cases hcond2 : (md = -1 ∨ ((d0 + 1 : Nat) : Int) ≤ md)
    swap
    · rw [if_neg hcond2] at htail
      simp at htail
    rw [if_pos hcond2] at htail
    obtain ⟨c, hc, hm⟩ := (mem_gen_walkL cs md (d0 + 1)).mp htail
    exact IH c hc md (d0 + 1) hmd x hm

theorem gen_walk_spec (root : DirectoryNode) (t : DirectoryNode) :
    ∀ (p : List Nat), nodeAtIdx root p = some t → ∀ (md : Int),
      DirectoryNode.gen_walk t md p.length =
        (genWalkP t md p).map (fun x => ((nodeAtIdx root x.1).getD root, x.2)) := by
  refine dnodeStrongInd
    (fun t => ∀ (p : List Nat), nodeAtIdx root p = some t → ∀ (md : Int),
      DirectoryNode.gen_walk t md p.length =
        (genWalkP t md p).map (fun x => ((nodeAtIdx root x.1).getD root, x.2))) ?_ t
  intro r h cs IH p hp md
  simp only [DirectoryNode.gen_walk, genWalkP]
  by_cases hcond : (md = -1 ∨ (p.length : Int) ≤ md)
  swap
  · rw [if_neg hcond, if_neg hcond]
    rfl
  rw [if_pos hcond, if_pos hcond]
  simp only [List.map_cons]
  have hhead : ((nodeAtIdx root p).getD root, p.length) = (DirectoryNode.mk r h cs, p.length) := by
    rw [hp]
    rfl
  rw [hhead]
  by_cases hcond2 : (md = -1 ∨ ((p.length + 1 : Nat) : Int) ≤ md)
  swap
  · rw [if_neg hcond2, if_neg hcond2]
    rfl
  rw [if_pos hcond2, if_pos hcond2]
  have hlist : ∀ (cs' : List DirectoryNode) (i : Nat),
      (∀ j : Nat, cs'[j]? = cs[i + j]?) →
      DirectoryNode.gen_walkL cs' md (p.length + 1) =
        (genWalkPL cs' i md p).map (fun x => ((nodeAtIdx root x.1).getD root, x.2)) := by
    intro cs'
    induction cs' with
    | nil => intro i hacc; rfl
    | cons c0 cs'' ih2 =>
      intro i hacc
      have hc0 : cs[i]? = some c0 := by
        have := hacc 0
        simp only [List.getElem?_cons_zero, Nat.add_zero] at this
        exact this.symm
      have hc0mem : c0 ∈ cs := mem_of_getElemQ cs i c0 hc0
      have hnode : nodeAtIdx root (p ++ [i]) = some c0 := by
        rw [nodeAtIdx_append, hp]
        simp [nodeAtIdx, DirectoryNode.children, hc0]
      have hrec := IH c0 hc0mem (p ++ [i]) hnode md
      have hlen : (p ++ [i]).length = p.length + 1 := by simp
      rw [hlen] at hrec
      simp only [DirectoryNode.gen_walkL, genWalkPL, List.map_append]
      rw [hrec, ih2 (i + 1) (fun j => by
        have := hacc (j + 1)
        have harith : i + (j + 1) = i + 1 + j := by omega
        simpa [harith] using this)]
  have htail := hlist cs 0 (fun j => by simp)
  rw [htail]

/-- C6: `gen_walk` is exactly the path-walk `genWalkP` read back through
the tree (so the two describe the same traversal); the depth of every
yielded pair equals the length of its path, so a child is yielded at
exactly its parent's depth plus 1 and the start node at depth 0; with
`max_depth = d ≥ 0` no pair deeper than `d` is produced; and the walk is
pre-order: a node's pair forms a sublist (earlier position) with the pair
of any node whose path strictly extends it. -/
theorem claim_C6 (t : DirectoryNode) :
    (∀ md : Int, DirectoryNode.gen_walk t md 0 =
      (genWalkP t md []).map (fun x => ((nodeAtIdx t x.1).getD t, x.2))) ∧
    (∀ (md : Int) (q : List Nat) (k : Nat), (q, k) ∈ genWalkP t md [] → k = q.length) ∧
    (∀ (md : Int) (q : List Nat) (i k kc : Nat),
      (q, k) ∈ genWalkP t md [] → (q ++ [i], kc) ∈ genWalkP t md [] → kc = k + 1) ∧
    (∀ (d : Nat) (x : DirectoryNode × Nat),
      x ∈ DirectoryNode.gen_walk t (d : Int) 0 → x.2 ≤ d) ∧
    (∀ (md : Int) (p q : List Nat) (kp kq : Nat),
      (p, kp) ∈ genWalkP t md [] → (q, kq) ∈ genWalkP t md [] →
      pfx p q = true → p ≠ q →
      List.Sublist [(p, kp), (q, kq)] (genWalkP t md [])) := by
  refine ⟨?_, ?_, ?_, ?_, ?_⟩
  · intro md
    have := gen_walk_spec t t [] rfl md
    simpa using this
  · intro md q k hm
    exact (genWalkP_mem_path t md [] q k hm).2
  · intro md q i k kc hq hqi
    have h1 := (genWalkP_mem_path t md [] q k hq).2
    have h2 := (genWalkP_mem_path t md [] (q ++ [i]) kc hqi).2
    simp only [List.length_append, List.length_cons, List.length_nil] at h2
    omega
  · intro d x hx
    have hmd : (d : Int) ≠ -1 := by omega
    have := gen_walk_depth_le t (d : Int) 0 hmd x hx
    exact_mod_cast this
  · intro md p q kp kq hp hq hpq hne
    exact genWalkP_order t md [] p q kp kq hp hq hpq hne

/-- A small concrete tree: root with a file child and a directory child
holding one file. -/
def sampleTree : DirectoryNode :=
  .mk .root .none [.mk (.file [97] 5 1) (.int 0) [],
    .mk (.dir [98] 6) (.int 0) [.mk (.file [99] 7 2) (.int 0) []]]

/-- C6 witness: on `sampleTree`, the walk yields the grandchild at depth
2 = its path length, and the directory child's pair is ordered strictly
before its file grandchild's pair. -/
theorem claim_C6_witness :
    ((2 : Nat) = [1, 0].length) ∧
    List.Sublist [([1], 1), ([1, 0], 2)] (genWalkP sampleTree (-1) []) := by
  constructor
  · exact (claim_C6 sampleTree).2.1 (-1) [1, 0] 2 (by decide)
  · exact (claim_C6 sampleTree).2.2.2.2 (-1) [1] [1, 0] 1 2 (by decide) (by decide)
      (by decide) (by decide)

/-! ### Frame and stability lemmas for `setChildrenAtIdx` (claim C4) -/

theorem getQ_set_self {α : Type} :
    ∀ (l : List α) (i : Nat) (x a : α), l[i]? = some a → (l.set i x)[i]? = some x := by
  intro l
  induction l with
  | nil => intro i x a h; simp at h
  | cons y ys ih =>
    intro i x a h
    cases i with
    | zero => simp
    | succ i => simpa using ih i x a (by simpa using h)

theorem getQ_set_ne {α : Type} :
    ∀ (l : List α) (i j : Nat) (x : α), i ≠ j → (l.set i x)[j]? = l[j]? := by
  intro l
  induction l with
  | nil => intro i j x _; simp
  | cons y ys ih =>
    intro i j x hij
    cases i with
    | zero =>
      cases j with
      | zero => exact absurd rfl hij
      | succ j => simp
    | succ i =>
      cases j with
      | zero => simp
      | succ j => simpa using ih i j x (fun h => hij (by omega))

theorem mapQ_set {α β : Type} (f : α → β) :
    ∀ (l : List α) (i : Nat) (x : α), (l.set i x).map f = (l.map f).set i (f x) := by
  intro l
  induction l with
  | nil => intro i x; simp
  | cons y ys ih =>
    intro i x
    cases i with
    | zero => simp
    | succ i => simpa using ih i x

theorem set_self_of_getQ {α : Type} :
    ∀ (l : List α) (i : Nat) (a : α), l[i]? = some a → l.set i a = l := by
  intro l
  induction l with
  | nil => intro i a h; simp at h
  | cons y ys ih =>
    intro i a h
    cases i with
    | zero =>
      simp only [List.getElem?_cons_zero, Option.some.injEq] at h
      simp [h]
    | succ i => simpa using ih i a (by simpa using h)

theorem pfx_cons_same (i : Nat) (p q : List Nat) : pfx (i :: p) (i :: q) = pfx p q := by
  simp [pfx, List.take_succ_cons]

theorem shallow_setChildren (cs2 : List DirectoryNode) (t : DirectoryNode) (p : List Nat) :
    shallow (setChildrenAtIdx t p cs2) = shallow t := by
  cases t with
  | mk r h cs =>
    cases p with
    | nil => rfl
    | cons i p' =>
      simp only [setChildrenAtIdx]
      cases cs[i]? <;> rfl

theorem matchSeg_congr {c d : DirectoryNode} (h : shallow c = shallow d) (seg : List Nat) :
    matchSeg seg c = matchSeg seg d := by
  simp only [shallow, Prod.mk.injEq] at h
  simp only [matchSeg, h.1, h.2]

theorem childIdx_congr :
    ∀ (l1 l2 : List DirectoryNode), l1.map shallow = l2.map shallow →
      ∀ seg, childIdx l1 seg = childIdx l2 seg := by
  intro l1
  induction l1 with
  | nil =>
    intro l2 h seg
    cases l2 with
    | nil => rfl
    | cons d ds => simp at h
  | cons c cs ih =>
    intro l2 h seg
    cases l2 with
    | nil => simp at h
    | cons d ds =>
      simp only [List.map_cons, List.cons.injEq] at h
      simp only [childIdx, matchSeg_congr h.1 seg, ih ds h.2 seg]

/-- Replacing the children of the node at `p` leaves record, hash and the
children's records/hashes of every node whose index path does not extend
`p` unchanged (the claim's "no folder not named in the call is
mutated"). -/
theorem setChildren_frame (cs2 : List DirectoryNode) :
    ∀ (p : List Nat) (t : DirectoryNode) (q : List Nat), pfx p q = false →
      shallowAt (setChildrenAtIdx t p cs2) q = shallowAt t q ∧
      childrenShallowAt (setChildrenAtIdx t p cs2) q = childrenShallowAt t q := by
  intro p
  induction p with
  | nil => intro t q hpf; simp [pfx] at hpf
  | cons i p' ih =>
    intro t q hpf
    cases t with
    | mk r h cs =>
      simp only [setChildrenAtIdx]
      cases hci : cs[i]? with
      | none => exact ⟨rfl, rfl⟩
      | some c =>
        cases q with
        | nil =>
          refine ⟨rfl, ?_⟩
          simp only [childrenShallowAt, nodeAtIdx, DirectoryNode.children, Option.map_some']
          congr 1
          rw [mapQ_set, shallow_setChildren]
          apply set_self_of_getQ
          rw [List.getElem?_map, hci, Option.map_some']
        | cons j q' =>
          by_cases hij : i = j
          · subst hij
            have hpf' : pfx p' q' = false := by rwa [pfx_cons_same] at hpf
            simp only [shallowAt, childrenShallowAt, nodeAtIdx, DirectoryNode.children,
              getQ_set_self cs i (setChildrenAtIdx c p' cs2) c hci, hci]
            exact ih c q' hpf'
          · simp only [shallowAt, childrenShallowAt, nodeAtIdx, DirectoryNode.children,
              getQ_set_ne cs i j (setChildrenAtIdx c p' cs2) hij]
            refine ⟨?_, ?_⟩ <;> trivial

/-- Resolution of a name-segment path is unaffected by a children
replacement at an index path that is not an initial segment of the
resolved path (matching reads only records and hashes, which the
replacement preserves everywhere above and beside `p`). -/
theorem resolveIdx_stable (cs2 : List DirectoryNode) :
    ∀ (segs : List (List Nat)) (t : DirectoryNode) (p ip : List Nat),
      resolveIdx t segs = some ip → pfx p ip = false →
      resolveIdx (setChildrenAtIdx t p cs2) segs = some ip := by
  intro segs
  induction segs with
  | nil =>
    intro t p ip h _
    simp only [resolveIdx] at h ⊢
    exact h
  | cons s rest ih =>
    intro t p ip h hpf
    cases t with
    | mk r hh cs =>
      simp only [resolveIdx, DirectoryNode.children] at h
      cases hci : childIdx cs s with
      | none => simp [hci] at h
      | some i =>
        simp only [hci] at h
        cases hgi : cs[i]? with
        | none => simp [hgi] at h
        | some c =>
          simp only [hgi] at h
          obtain ⟨ip', hip', rfl⟩ := Option.map_eq_some'.mp h
          cases p with
          | nil => simp [pfx] at hpf
          | cons j p' =>
            cases hgj : cs[j]? with
            | none =>
              simp only [setChildrenAtIdx, hgj, resolveIdx, DirectoryNode.children, hci, hgi,
                hip', Option.map_some']
            | some cj =>
              have hmap : (cs.set j (setChildrenAtIdx cj p' cs2)).map shallow = cs.map shallow := by
                rw [mapQ_set, shallow_setChildren]
                apply set_self_of_getQ
                rw [List.getElem?_map, hgj, Option.map_some']
              simp only [setChildrenAtIdx, hgj, resolveIdx, DirectoryNode.children,
                childIdx_congr _ _ hmap s, hci]
              by_cases hji : j = i
              · subst hji
                have hceq : c = cj := by rw [hgi] at hgj; exact Option.some.inj hgj
                subst hceq
                have hpf' : pfx p' ip' = false := by rwa [pfx_cons_same] at hpf
                simp only [getQ_set_self cs j (setChildrenAtIdx c p' cs2) c hgj,
                  ih c p' ip' hip' hpf', Option.map_some']
              · simp only [getQ_set_ne cs j i (setChildrenAtIdx cj p' cs2) hji, hgi, hip',
                  Option.map_some']

/-- At the replaced node itself, record and hash survive and the children
become exactly the new list. -/
theorem nodeAtIdx_setChildren (cs2 : List DirectoryNode) :
    ∀ (ip : List Nat) (t n : DirectoryNode), nodeAtIdx t ip = some n →
      nodeAtIdx (setChildrenAtIdx t ip cs2) ip = some (.mk n.record n.hash cs2) := by
  intro ip
  induction ip with
  | nil =>
    intro t n h
    cases t with
    | mk r hh cs =>
      have h' : DirectoryNode.mk r hh cs = n := by simpa [nodeAtIdx] using h
      rw [← h']
      rfl
  | cons i p ih =>
    intro t n h
    cases t with
    | mk r hh cs =>
      simp only [nodeAtIdx, DirectoryNode.children] at h
      cases hci : cs[i]? with
      | none => simp [hci] at h
      | some c =>
        simp only [hci] at h
        simp only [setChildrenAtIdx, hci, nodeAtIdx, DirectoryNode.children,
          getQ_set_self cs i (setChildrenAtIdx c p cs2) c hci]
        exact ih c n h

theorem resolveIdx_nodeAtIdx :
    ∀ (segs : List (List Nat)) (t : DirectoryNode) (ip : List Nat),
      resolveIdx t segs = some ip → ∃ n, nodeAtIdx t ip = some n := by
  intro segs
  induction segs with
  | nil =>
    intro t ip h
    have h' : ([] : List Nat) = ip := Option.some.inj h
    subst h'
    exact ⟨t, rfl⟩
  | cons s rest ih =>
    intro t ip h
    cases t with
    | mk r hh cs =>
      simp only [resolveIdx, DirectoryNode.children] at h
      cases hci : childIdx cs s with
      | none => simp [hci] at h
      | some i =>
        simp only [hci] at h
        cases hgi : cs[i]? with
        | none => simp [hgi] at h
        | some c =>
          simp only [hgi] at h
          obtain ⟨ip', hip', rfl⟩ := Option.map_eq_some'.mp h
          obtain ⟨n, hn⟩ := ih c ip' hip'
          exact ⟨n, by simp only [nodeAtIdx, DirectoryNode.children, hgi]; exact hn⟩

theorem getPath_nodeAtIdx {t : DirectoryNode} {f ip : List Nat}
    (h : getPath t f = some ip) : ∃ n, nodeAtIdx t ip = some n := by
  by_cases hf : f = []
  · subst hf
    have h' : ip = [] := by simpa [getPath, eq_comm] using h
    subst h'
    exact ⟨t, rfl⟩
  · simp only [getPath, if_neg hf] at h
    exact resolveIdx_nodeAtIdx _ t ip h

theorem getPath_stable (cs2 : List DirectoryNode) {t : DirectoryNode} {f ip p : List Nat}
    (h : getPath t f = some ip) (hpf : pfx p ip = false) :
    getPath (setChildrenAtIdx t p cs2) f = some ip := by
  by_cases hf : f = []
  · subst hf
    simpa only [getPath, if_pos rfl] using h
  · simp only [getPath, if_neg hf] at h ⊢
    exact resolveIdx_stable cs2 _ t p ip h hpf

/-- Record and lookup hash a decoded item's fresh node carries. -/
def itemShallow (it : PItem) : VRecord × HashV :=
  (itemRecord it, .int (murmur2_32 (utf16le (it.name.map lowerCU))))

theorem shallow_itemNode (it : PItem) : shallow (itemNode it) = itemShallow it := rfl

theorem parseFolder_getPath {t : DirectoryNode} {f : List Nat} {rd : RdSt}
    {ip : List Nat} {items : List PItem} {st1 : RdSt}
    (h : parseFolder t f rd = .ok (ip, items, st1)) : getPath t f = some ip := by
  simp only [parseFolder] at h
  cases h2 : PatchFileList.read 2 rd with
  | error e => simp [h2] at h
  | ok v =>
    obtain ⟨hdr, sta⟩ := v
    simp only [h2] at h
    by_cases hh : hdr ≠ PROTO_HEADER2
    · simp [hh] at h
    · simp only [if_neg hh] at h
      cases h3 : PatchFileList.extract_varchar sta with
      | error e => simp [h3] at h
      | ok v2 =>
        obtain ⟨fn, stb⟩ := v2
        simp only [h3] at h
        cases h4 : PatchFileList.read 4 stb with
        | error e => simp [h4] at h
        | ok v3 =>
          obtain ⟨cb, stc⟩ := v3
          simp only [h4] at h
          cases hgp : getPath t f with
          | none => simp [hgp] at h
          | some ip2 =>
            simp only [hgp] at h
            cases h5 : parseItems (beNat cb) stc with
            | error e => simp [h5] at h
            | ok v4 =>
              obtain ⟨items2, std⟩ := v4
              simp only [h5] at h
              simp only [Except.ok.injEq, Prod.mk.injEq] at h
              rw [h.1]

theorem buildQueryGo_ok_resolvable (t : DirectoryNode) (multi : Bool) :
    ∀ (fs : List (List Nat)) (acc q : List Nat),
      buildQueryGo t multi fs acc = .ok q → ∀ f ∈ fs, ∃ ip, getPath t f = some ip := by
  intro fs
  induction fs with
  | nil => intro acc q h f hf; simp at hf
  | cons f0 rest ih =>
    intro acc q h f hf
    simp only [buildQueryGo] at h
    by_cases hr : f0 = []
    · rw [if_pos hr] at h
      by_cases hm : multi = true
      · rw [if_pos hm] at h
        simp at h
      · rw [if_neg hm] at h
        rcases List.mem_cons.mp hf with rfl | hmem
        · exact ⟨[], by simp [getPath, hr]⟩
        · exact ih _ q h f hmem
    · rw [if_neg hr] at h
      cases hgp : getPath t f0 with
      | none => simp [hgp] at h
      | some ip0 =>
        simp only [hgp] at h
        cases hna : nodeAtIdx t ip0 with
        | none => simp [hna] at h
        | some node =>
          simp only [hna] at h
          cases hrec : node.record with
          | root => simp [hrec] at h
          | file nm hh sz => simp [hrec] at h
          | dir nm hh =>
            simp only [hrec] at h
            by_cases h255 : f0.length ≤ 255
            · rw [if_pos h255] at h
              rcases List.mem_cons.mp hf with rfl | hmem
              · exact ⟨ip0, hgp⟩
              · exact ih _ q h f hmem
            · rw [if_neg h255] at h
              simp at h

theorem buildQuery_ok_nodup {t : DirectoryNode} {folders : List (List Nat)} {q : List Nat}
    (h : buildQuery t folders = .ok q) : folders.Nodup := by
  simp only [buildQuery] at h
  by_cases hd : folders.dedup.length ≠ folders.length
  · rw [if_pos hd] at h
    simp at h
  · push_neg at hd
    have hde : folders.dedup = folders :=
      List.Sublist.eq_of_length (List.dedup_sublist folders) hd
    rw [← hde]
    exact List.nodup_dedup folders

theorem buildQuery_ok_resolvable {t : DirectoryNode} {folders : List (List Nat)} {q : List Nat}
    (h : buildQuery t folders = .ok q) : ∀ f ∈ folders, ∃ ip, getPath t f = some ip := by
  simp only [buildQuery] at h
  split at h
  · simp at h
  · exact buildQueryGo_ok_resolvable t _ folders [] q h

/-- The response loop: (frame clause) every node whose index path is not
extended by a named folder's resolved path keeps its record, hash and
children records/hashes, whether the loop succeeds or aborts; (success
clause) on success every named folder still resolves to the same path,
that node keeps record and hash and its children are exactly the fresh
nodes decoded from its own response sub-frame (entry `i` of `framesOf`,
the loop's decode trace), in frame order — wholesale replacement. -/
theorem processFolders_spec :
    ∀ (fs : List (List Nat)) (t : DirectoryNode) (rd : RdSt),
      fs.Nodup →
      (∀ f ∈ fs, ∃ ip, getPath t f = some ip) →
      (∀ f g ipf ipg, f ∈ fs → g ∈ fs → f ≠ g → getPath t f = some ipf →
        getPath t g = some ipg → pfx ipf ipg = false) →
      (∀ q : List Nat,
        (∀ f ∈ fs, ∀ ip, getPath t f = some ip → pfx ip q = false) →
        shallowAt (processFolders fs t rd).1 q = shallowAt t q ∧
        childrenShallowAt (processFolders fs t rd).1 q = childrenShallowAt t q) ∧
      ((processFolders fs t rd).2.2 = none →
        (framesOf fs t rd).length = fs.length ∧
        ∀ (i : Nat) (f ip : List Nat) (items : List PItem),
          fs[i]? = some f → (framesOf fs t rd)[i]? = some (ip, items) →
          getPath t f = some ip ∧
          shallowAt (processFolders fs t rd).1 ip = shallowAt t ip ∧
          childrenShallowAt (processFolders fs t rd).1 ip =
            some (items.map itemShallow)) := by
  intro fs
  induction fs with
  | nil =>
    intro t rd _ _ _
    refine ⟨fun q _ => ⟨rfl, rfl⟩, fun _ => ⟨rfl, ?_⟩⟩
    intro i f ip items hf _
    simp at hf
  | cons f0 rest ih =>
    intro t rd hnd hres hpf
    have hf0mem : f0 ∈ f0 :: rest := List.mem_cons_self _ _
    have hnodup := List.nodup_cons.mp hnd
    cases hpar : parseFolder t f0 rd with
    | error e =>
      have hru : processFolders (f0 :: rest) t rd = (t, rd, some e) := by
        simp [processFolders, hpar]
      rw [hru]
      exact ⟨fun q _ => ⟨rfl, rfl⟩, fun hnone => by simp at hnone⟩
    | ok v =>
      obtain ⟨ip, items, st1⟩ := v
      have hipeq : getPath t f0 = some ip := parseFolder_getPath hpar
      have hru : processFolders (f0 :: rest) t rd =
          processFolders rest (setChildrenAtIdx t ip (items.map itemNode)) st1 := by
        simp [processFolders, hpar]
      have hstab : ∀ g ∈ rest, ∀ ipg, getPath t g = some ipg →
          getPath (setChildrenAtIdx t ip (items.map itemNode)) g = some ipg := by
        intro g hg ipg hgip
        have hgne : f0 ≠ g := fun hgeq => hnodup.1 (hgeq ▸ hg)
        have hpfx : pfx ip ipg = false :=
          hpf f0 g ip ipg hf0mem (List.mem_cons_of_mem _ hg) hgne hipeq hgip
        exact getPath_stable _ hgip hpfx
      have hback : ∀ g ∈ rest, ∀ ipg,
          getPath (setChildrenAtIdx t ip (items.map itemNode)) g = some ipg →
          getPath t g = some ipg := by
        intro g hg ipg h1
        obtain ⟨ipg0, hg0⟩ := hres g (List.mem_cons_of_mem _ hg)
        have e1 := hstab g hg _ hg0
        rw [h1] at e1
        rw [Option.some.inj e1]
        exact hg0
      have hres1 : ∀ g ∈ rest, ∃ ipg,
          getPath (setChildrenAtIdx t ip (items.map itemNode)) g = some ipg := by
        intro g hg
        obtain ⟨ipg, hgip⟩ := hres g (List.mem_cons_of_mem _ hg)
        exact ⟨ipg, hstab g hg ipg hgip⟩
      have hpf1 : ∀ g g' ipg ipg', g ∈ rest → g' ∈ rest → g ≠ g' →
          getPath (setChildrenAtIdx t ip (items.map itemNode)) g = some ipg →
          getPath (setChildrenAtIdx t ip (items.map itemNode)) g' = some ipg' →
          pfx ipg ipg' = false := by
        intro g g' ipg ipg' hg hg' hne h1 h2
        exact hpf g g' ipg ipg' (List.mem_cons_of_mem _ hg) (List.mem_cons_of_mem _ hg')
          hne (hback g hg ipg h1) (hback g' hg' ipg' h2)
      have hIH := ih (setChildrenAtIdx t ip (items.map itemNode)) st1 hnodup.2 hres1 hpf1
      have hfrs : framesOf (f0 :: rest) t rd =
          (ip, items) :: framesOf rest (setChildrenAtIdx t ip (items.map itemNode)) st1 := by
        simp [framesOf, hpar]
      rw [hru, hfrs]
      constructor
      · intro q hq
        have hq1 : ∀ g ∈ rest, ∀ ipg,
            getPath (setChildrenAtIdx t ip (items.map itemNode)) g = some ipg →
            pfx ipg q = false := by
          intro g hg ipg h1
          exact hq g (List.mem_cons_of_mem _ hg) ipg (hback g hg ipg h1)
        obtain ⟨hs1, hc1⟩ := hIH.1 q hq1
        have hf0frame :=
          setChildren_frame (items.map itemNode) ip t q (hq f0 hf0mem ip hipeq)
        exact ⟨hs1.trans hf0frame.1, hc1.trans hf0frame.2⟩
      · intro hnone
        have hIHs := hIH.2 hnone
        refine ⟨by simp [hIHs.1], ?_⟩
        intro i f ip2 items2 hfi hframei
        cases i with
        | zero =>
          simp only [List.getElem?_cons_zero, Option.some.injEq, Prod.mk.injEq]
            at hfi hframei
          obtain ⟨rfl, rfl⟩ := hframei
          subst hfi
          obtain ⟨n, hn⟩ := getPath_nodeAtIdx hipeq
          have ht1node := nodeAtIdx_setChildren (items.map itemNode) ip t n hn
          have hframe1 : ∀ g ∈ rest, ∀ ipg,
              getPath (setChildrenAtIdx t ip (items.map itemNode)) g = some ipg →
              pfx ipg ip = false := by
            intro g hg ipg h1
            have hg0 := hback g hg ipg h1
            exact hpf g f0 ipg ip (List.mem_cons_of_mem _ hg) hf0mem
              (fun hgeq => hnodup.1 (hgeq ▸ hg)) hg0 hipeq
          obtain ⟨hsR, hcR⟩ := hIH.1 ip hframe1
          refine ⟨hipeq, ?_, ?_⟩
          · rw [hsR]
            simp only [shallowAt, ht1node, hn, Option.map_some']
            rfl
          · rw [hcR]
            simp only [childrenShallowAt, ht1node, Option.map_some', DirectoryNode.children,
              List.map_map]
            simp only [Function.comp_def, shallow_itemNode]
        | succ j =>
          simp only [List.getElem?_cons_succ] at hfi hframei
          have hf_mem : f ∈ rest := mem_of_getElemQ rest j f hfi
          obtain ⟨hgp1, hsh1, hch1⟩ := hIHs.2 j f ip2 items2 hfi hframei
          have hg0 := hback f hf_mem ip2 hgp1
          refine ⟨hg0, ?_, hch1⟩
          have hgne : f0 ≠ f := fun hgeq => hnodup.1 (hgeq ▸ hf_mem)
          have hpfx : pfx ip ip2 = false :=
            hpf f0 f ip ip2 hf0mem (List.mem_cons_of_mem _ hf_mem) hgne hipeq hg0
          have hfr2 := setChildren_frame (items.map itemNode) ip t ip2 hpfx
          exact hsh1.trans hfr2.1

/-- C4: for a `update_filelist` call whose folders resolve to pairwise
non-nested nodes, (frame) any node whose index path is not extended by a
named folder's resolved path keeps its record, hash and children
records/hashes — on failure as well as success, so no folder not named in
the call is mutated; (success) when the call raises nothing, every named
folder still resolves to its node, that node's record and hash are
unchanged (the new children hang off the folder's existing node) and its
children are exactly the fresh nodes decoded from that folder's own
response sub-frame — entry `i` of `update_filelist_frames`, the call's
decode trace, for folder `i` — in the frame's item order: wholesale
replacement, not a merge. -/
theorem claim_C4 (folders : List (List Nat)) (st : PatchFileList)
    (hpf : ∀ f g ipf ipg, f ∈ folders → g ∈ folders → f ≠ g →
      getPath st.directory f = some ipf → getPath st.directory g = some ipg →
      pfx ipf ipg = false) :
    (∀ q : List Nat,
      (∀ f ∈ folders, ∀ ip, getPath st.directory f = some ip → pfx ip q = false) →
      shallowAt (PatchFileList.update_filelist folders st).1.directory q =
        shallowAt st.directory q ∧
      childrenShallowAt (PatchFileList.update_filelist folders st).1.directory q =
        childrenShallowAt st.directory q) ∧
    ((PatchFileList.update_filelist folders st).2 = none →
      (PatchFileList.update_filelist_frames folders st).length = folders.length ∧
      ∀ (i : Nat) (f ip : List Nat) (items : List PItem),
        folders[i]? = some f →
        (PatchFileList.update_filelist_frames folders st)[i]? = some (ip, items) →
        getPath st.directory f = some ip ∧
        shallowAt (PatchFileList.update_filelist folders st).1.directory ip =
          shallowAt st.directory ip ∧
        childrenShallowAt (PatchFileList.update_filelist folders st).1.directory ip =
          some (items.map itemShallow)) := by
  cases hbq : buildQuery st.directory folders with
  | error e =>
    have hru : PatchFileList.update_filelist folders st = (st, some e) := by
      simp [PatchFileList.update_filelist, hbq]
    rw [hru]
    exact ⟨fun q _ => ⟨rfl, rfl⟩, fun h => by simp at h⟩
  | ok q0 =>
    have hnd := buildQuery_ok_nodup hbq
    have hres := buildQuery_ok_resolvable hbq
    cases hch : st.data.chunks with
    | nil =>
      have hru : PatchFileList.update_filelist folders st =
          ({ st with sent := st.sent ++ [q0] }, some .timeout) := by
        simp [PatchFileList.update_filelist, hbq, hch]
      rw [hru]
      exact ⟨fun q _ => ⟨rfl, rfl⟩, fun h => by simp at h⟩
    | cons c restCh =>
      have hps := processFolders_spec folders st.directory ⟨c, 0, restCh⟩ hnd hres hpf
      rcases hproc : processFolders folders st.directory ⟨c, 0, restCh⟩ with ⟨t1, rd1, err⟩
      rw [hproc] at hps
      have hru : PatchFileList.update_filelist folders st =
          ({ directory := t1, data := rd1, sent := st.sent ++ [q0] }, err) := by
        simp [PatchFileList.update_filelist, hbq, hch, hproc]
      have hfrs : PatchFileList.update_filelist_frames folders st =
          framesOf folders st.directory ⟨c, 0, restCh⟩ := by
        simp [PatchFileList.update_filelist_frames, hch]
      rw [hru, hfrs]
      exact ⟨fun q hq => hps.1 q hq, fun hnone => hps.2 hnone⟩

/-- C4 witness: the root listing that delivers `sampleFrame` succeeds and
leaves the root's children exactly the frame's decoded item set — the one
file `"a.txt"`, size 10, hash 1, that `update_filelist_frames` records
for folder 0. -/
theorem claim_C4_witness :
    getPath sampleState.directory [] = some [] ∧
    shallowAt (PatchFileList.update_filelist [[]] sampleState).1.directory [] =
      shallowAt sampleState.directory [] ∧
    childrenShallowAt (PatchFileList.update_filelist [[]] sampleState).1.directory [] =
      some ([({ isDir := false, name := [97, 46, 116, 120, 116], size := 10, sha := 1 } :
        PItem)].map itemShallow) :=
  ((claim_C4 [[]] sampleState (fun f g ipf ipg hf hg hne _ _ => by
      simp only [List.mem_singleton] at hf hg
      exact absurd (hf.trans hg.symm) hne)).2 (by rfl)).2 0 [] []
    [{ isDir := false, name := [97, 46, 116, 120, 116], size := 10, sha := 1 }]
    (by rfl) (by rfl)
